import Mathlib

/-!
Verification of the Devpost project-page extraction engine
(`src/parser.py`: `clean_text` and `parse_project_page`) against its
natural-language specification.  The Python code is shallowly embedded:
the parsed markup tree becomes an inductive `Node`, each extraction
step becomes an executable Lean function mirroring the source line by
line, and the record is an insertion-ordered association list with the
update semantics of a Python dict.
-/

namespace Devpost

/-- Whitespace characters recognised by the Python regex class used in
`clean_text` (ASCII subset of `\s`). -/
def isPySpace (c : Char) : Bool :=
  c = ' ' || c = '\t' || c = '\n' || c = '\r' || c = '\x0b' || c = '\x0c'

/-- One pass of `re.sub(r"\s+", " ", text)` over the character list.
The flag records whether the previous character was whitespace, so a
run of whitespace emits exactly one space. -/
def collapseAux : Bool → List Char → List Char
  | _, [] => []
  | prevWS, c :: cs =>
    if isPySpace c then
      if prevWS then collapseAux true cs
      else ' ' :: collapseAux true cs
    else c :: collapseAux false cs

/-- Python `str.strip()` on a character list: drop leading and trailing
whitespace. -/
def stripChars (l : List Char) : List Char :=
  ((l.dropWhile isPySpace).reverse.dropWhile isPySpace).reverse

/-- Python `str.strip()` on strings. -/
def pyStrip (s : String) : String :=
  String.mk (stripChars s.data)

/-- Embedding of `clean_text` from `src/parser.py`: empty input maps to
the empty string, otherwise whitespace runs collapse to single spaces
and the ends are trimmed. -/
def cleanText (s : String) : String :=
  if s = "" then ""
  else String.mk (stripChars (collapseAux false s.data))

theorem lenDropWhileLe (p : Char → Bool) :
    ∀ l : List Char, (l.dropWhile p).length ≤ l.length := by
  intro l
  induction l with
  | nil => simp
  | cons c cs ih =>
    simp only [List.dropWhile]
    split
    · exact Nat.le_succ_of_le ih
    · simp

/-- The maximal non-whitespace words of a character list, in order.
Used only in proofs, as a specification of `cleanText`.  In the second
branch the head `c` is not whitespace, so dropping the non-whitespace
run from `cs` equals dropping it from `c :: cs`. -/
def wordsOf (l : List Char) : List (List Char) :=
  match l with
  | [] => []
  | c :: cs =>
    if isPySpace c then wordsOf cs
    else ((c :: cs).takeWhile (fun x => !isPySpace x)) ::
      wordsOf (cs.dropWhile (fun x => !isPySpace x))
termination_by l.length
decreasing_by
all_goals simp only [List.length_cons]
· omega
· exact Nat.lt_succ_of_le (lenDropWhileLe _ cs)

/-- Join words with single spaces; the specification-side counterpart
of collapse-and-trim. -/
def joinW : List (List Char) → List Char
  | [] => []
  | [w] => w
  | w :: v :: ws => w ++ ' ' :: joinW (v :: ws)

/-- Python substring test `needle in hay`, as a scan over tails. -/
def subAux (nd : List Char) : List Char → Bool
  | [] => nd.isEmpty
  | c :: t => nd.isPrefixOf (c :: t) || subAux nd t

/-- Python `needle in hay` on strings. -/
def containsSub (needle hay : String) : Bool :=
  subAux needle.data hay.data

/-- Python `s.startswith(pre)`. -/
def pyStartsWith (pre s : String) : Bool :=
  pre.data.isPrefixOf s.data

/-- Leftmost match of the regex `grades\[(\d+)\]` anchored at the head
of the list: the captured digit group, if the pattern matches here. -/
def gradeHere (l : List Char) : Option String :=
  if "grades[".data.isPrefixOf l then
    let rest := l.drop 7
    let ds := rest.takeWhile Char.isDigit
    if ds.isEmpty then none
    else
      match rest.drop ds.length with
      | ']' :: _ => some (String.mk ds)
      | _ => none
  else none

/-- `re.search(r"grades\[(\d+)\]", s)` over the character list: try the
pattern at every position, left to right. -/
def gradeSearch : List Char → Option String
  | [] => none
  | c :: t =>
    match gradeHere (c :: t) with
    | some r => some r
    | none => gradeSearch t

/-- Captured digit group of the leftmost `grades[<digits>]` match. -/
def gradeCapture (s : String) : Option String :=
  gradeSearch s.data

/-- Match of `/submissions/\d+-[^/]+/submission_judgings/(\d+)` anchored
at the head of the list, returning the captured digits. -/
def judgingHere (l : List Char) : Option String :=
  if "/submissions/".data.isPrefixOf l then
    let r1 := l.drop 13
    let ds1 := r1.takeWhile Char.isDigit
    if ds1.isEmpty then none
    else
      match r1.drop ds1.length with
      | '-' :: r2 =>
        let seg := r2.takeWhile (fun c => c ≠ '/')
        if seg.isEmpty then none
        else
          let r3 := r2.drop seg.length
          if "/submission_judgings/".data.isPrefixOf r3 then
            let r4 := r3.drop 21
            let ds2 := r4.takeWhile Char.isDigit
            if ds2.isEmpty then none else some (String.mk ds2)
          else none
      | _ => none
  else none

/-- `re.search` scan for the judging-id pattern. -/
def judgingSearch : List Char → Option String
  | [] => none
  | c :: t =>
    match judgingHere (c :: t) with
    | some r => some r
    | none => judgingSearch t

/-- Captured judging id of the leftmost match in a form action. -/
def judgingCapture (s : String) : Option String :=
  judgingSearch s.data

mutual
/-- A parsed markup node: an element with tag, non-class attributes,
class tokens and children, or a bare text node (NavigableString). -/
inductive Node where
  | elem (tag : String) (attrs : List (String × String))
      (classes : List String) (children : NodeList)
  | text (s : String)
deriving DecidableEq, Repr
/-- Children of an element, as a mutually inductive list so that all
traversals are structurally recursive. -/
inductive NodeList where
  | nil
  | cons (head : Node) (tail : NodeList)
deriving DecidableEq, Repr
end

/-- Convert mutual children back to an ordinary list. -/
def NodeList.toList : NodeList → List Node
  | .nil => []
  | .cons n ns => n :: ns.toList

/-- Build mutual children from an ordinary list. -/
def nl : List Node → NodeList
  | [] => .nil
  | n :: t => .cons n (nl t)

/-- The tag name, or `none` for a text node (`.name is None`). -/
def nameOf : Node → Option String
  | .elem t _ _ _ => some t
  | .text _ => none

/-- Attribute lookup; text nodes have no attributes. -/
def attrOf : Node → String → Option String
  | .elem _ as2 _ _, k => as2.lookup k
  | .text _, _ => none

/-- Class-token list; text nodes have none. -/
def classesOf : Node → List String
  | .elem _ _ cls _ => cls
  | .text _ => []

/-- Tag-name test. -/
def isTag (n : Node) (t : String) : Bool :=
  nameOf n == some t

/-- Heading of level 2 to 4, the set used by most scans in the parser. -/
def isHeading234 (n : Node) : Bool :=
  isTag n "h2" || isTag n "h3" || isTag n "h4"

mutual
/-- `tag.text` / `get_text()`: concatenation of all descendant strings. -/
def nodeText : Node → String
  | .text s => s
  | .elem _ _ _ ch => nodeTextList ch
def nodeTextList : NodeList → String
  | .nil => ""
  | .cons n ns => nodeText n ++ nodeTextList ns
end

/-- `tag.string`: the unique descendant string along a chain of
single-child elements, if any. -/
def nodeString : Node → Option String
  | .text s => some s
  | .elem _ _ _ (.cons c .nil) => nodeString c
  | .elem _ _ _ _ => none

mutual
/-- Preorder flattening of a subtree (the node then its descendants). -/
def flattenNode (n : Node) : List Node :=
  n :: (match n with
        | .elem _ _ _ ch => flattenList ch
        | .text _ => [])
/-- Preorder flattening of a child list. -/
def flattenList : NodeList → List Node
  | .nil => []
  | .cons n ns => flattenNode n ++ flattenList ns
end

/-- Strict descendants of a node in document order. -/
def descNodes : Node → List Node
  | .elem _ _ _ ch => flattenList ch
  | .text _ => []

/-- A node together with its tree context: the chain of ancestors (each
with its own preceding siblings, nearest ancestor first), the preceding
siblings (nearest first) and the following siblings (in order). -/
structure Ctx where
  node : Node
  parents : List (Node × List Node)
  prevSibs : List Node
  nextSibs : List Node
deriving Repr, DecidableEq

mutual
/-- Context of a node and of all its descendants, in document order. -/
def ctxNode (parents : List (Node × List Node)) (before : List Node)
    (after : List Node) (n : Node) : List Ctx :=
  ⟨n, parents, before, after⟩ ::
    (match n with
     | .elem _ _ _ ch => ctxNodes ((n, before) :: parents) [] ch
     | .text _ => [])
/-- Contexts of a sibling list and their descendants, in document order. -/
def ctxNodes (parents : List (Node × List Node)) (before : List Node) :
    NodeList → List Ctx
  | .nil => []
  | .cons n rest =>
    ctxNode parents before rest.toList n ++ ctxNodes parents (n :: before) rest
end

/-- All descendants of the document root with their contexts, in
document order (the root itself is not searchable, as in bs4). -/
def allCtx (root : Node) : List Ctx :=
  match root with
  | .elem _ _ _ ch => ctxNodes [(root, [])] [] ch
  | .text _ => []

/-- Descendants of a context-carrying node, with full ancestor chains. -/
def localCtx (c : Ctx) : List Ctx :=
  match c.node with
  | .elem _ _ _ ch => ctxNodes ((c.node, c.prevSibs) :: c.parents) [] ch
  | .text _ => []

/-- `soup.select_one(".cls")`: first element carrying the class token. -/
def selectClass (root : Node) (cls : String) : Option Ctx :=
  (allCtx root).find? (fun c => (classesOf c.node).contains cls)

/-- `soup.select_one("tag")`: first element with the given tag. -/
def selectTag (root : Node) (t : String) : Option Ctx :=
  (allCtx root).find? (fun c => isTag c.node t)

/-- A record value: a cleaned string or the grade-fields mapping. -/
inductive Val where
  | str (s : String)
  | dict (d : List (String × String))
deriving DecidableEq, Repr

/-- The output record: an insertion-ordered association list. -/
abbrev Record := List (String × Val)

/-- Python dict assignment `d[k] = v`: replace in place, else append. -/
def upsertKV {α : Type} (k : String) (v : α) :
    List (String × α) → List (String × α)
  | [] => [(k, v)]
  | (k2, v2) :: rest =>
    if k2 = k then (k, v) :: rest else (k2, v2) :: upsertKV k v rest

/-- Python dict lookup and `k in d`. -/
def lookupKV {α : Type} (k : String) :
    List (String × α) → Option α
  | [] => none
  | (k2, v2) :: rest => if k2 = k then some v2 else lookupKV k rest

/-- `soup.find("input", {"name": "authenticity_token"})` predicate. -/
def isAuthInput (n : Node) : Bool :=
  isTag n "input" && (attrOf n "name" == some "authenticity_token")

/-- The extracted auth token: value attribute of the first matching
input, absent when there is no such input or it has no value. -/
def authTokenValue (root : Node) : Option String :=
  match (allCtx root).find? (fun c => isAuthInput c.node) with
  | some c => attrOf c.node "value"
  | none => none

/-- Predicate of `find_all("input", {"name": re.compile(r"grades\[\d+\]")})`. -/
def isGradeInput (n : Node) : Bool :=
  isTag n "input" &&
    (match attrOf n "name" with
     | some v => (gradeCapture v).isSome
     | none => false)

/-- All grade inputs in document order. -/
def gradeInputs (root : Node) : List Node :=
  ((allCtx root).filter (fun c => isGradeInput c.node)).map (fun c => c.node)

/-- The digit id captured from the name attribute of an input
(`input_field.get("name", "")` then `re.search`). -/
def captureOf (n : Node) : Option String :=
  gradeCapture ((attrOf n "name").getD "")

/-- One grade input added to the grades dict: id mapped to the value
attribute, defaulting to `""` when that attribute is missing. -/
def gradeStep (g : List (String × String)) (i : Node) :
    List (String × String) :=
  match captureOf i with
  | some gid => upsertKV gid ((attrOf i "value").getD "") g
  | none => g

/-- Build the grades dict: id to value, later inputs overwriting
earlier ones with the same id, missing values defaulting to `""`. -/
def gradesDict (inputs : List Node) : List (String × String) :=
  inputs.foldl gradeStep []

/-- Predicate of the judging-form search. -/
def isJudgingForm (n : Node) : Bool :=
  isTag n "form" &&
    (match attrOf n "action" with
     | some a => (judgingCapture a).isSome
     | none => false)

/-- Extracted submission-judging id. -/
def judgingId (root : Node) : Option String :=
  match (allCtx root).find? (fun c => isJudgingForm c.node) with
  | some c =>
    match attrOf c.node "action" with
    | some a => judgingCapture a
    | none => none
  | none => none

/-- First h1 with non-empty stripped text, the title heading. -/
def isTitleH1 (n : Node) : Bool :=
  isTag n "h1" && (pyStrip (nodeText n) != "")

/-- The title heading context, if any. -/
def titleH1 (root : Node) : Option Ctx :=
  (allCtx root).find? (fun c => isTitleH1 c.node)

/-- `soup.find("meta", {key: val})`. -/
def metaFind (root : Node) (key val : String) : Option Node :=
  ((allCtx root).find?
    (fun c => isTag c.node "meta" && (attrOf c.node key == some val))).map
    (fun c => c.node)

/-- Extracted title: cleaned h1 text, else cleaned meta content. -/
def titleValue (root : Node) : Option String :=
  match titleH1 root with
  | some c => some (cleanText (nodeText c.node))
  | none =>
    match metaFind root "property" "og:title" with
    | some m => (attrOf m "content").map cleanText
    | none =>
      match metaFind root "name" "twitter:title" with
      | some m => (attrOf m "content").map cleanText
      | none => none

/-- Elements strictly after the first one satisfying `p`, in document
order (`find_next` search space). -/
def afterFirst (p : Ctx → Bool) : List Ctx → List Ctx
  | [] => []
  | c :: rest => if p c then rest else afterFirst p rest

/-- The meta fallback chain for the description. -/
def descMeta (root : Node) : Option String :=
  match metaFind root "property" "og:description" with
  | some m => (attrOf m "content").map cleanText
  | none =>
    match metaFind root "name" "description" with
    | some m => (attrOf m "content").map cleanText
    | none =>
      match metaFind root "name" "twitter:description" with
      | some m => (attrOf m "content").map cleanText
      | none => none

/-- Extracted description: italic inside the first subheader h3 after
the title heading, else the meta fallback chain. -/
def descriptionValue (root : Node) : Option String :=
  match titleH1 root with
  | some _ =>
    let sub : Option Ctx :=
      (afterFirst (fun c => isTitleH1 c.node) (allCtx root)).find?
        (fun c => isTag c.node "h3" && (classesOf c.node).contains "subheader")
    let ital : Option Ctx :=
      match sub with
      | some sc => (localCtx sc).find? (fun c => isTag c.node "i")
      | none => none
    match ital with
    | some ic => some (cleanText (nodeText ic.node))
    | none => descMeta root
  | none => descMeta root

/-- The prefix-matched seventh canonical name. -/
def wnf : String := "What\x27s next for"

/-- The canonical section names, in the fixed scan order. -/
def sections : List String :=
  ["Inspiration", "What it does", "How we built it",
   "Challenges we ran into", "Accomplishments that we\x27re proud of",
   "What we learned", wnf]

/-- For the ancestor chain of a marker text node: the first ancestor
owning a preceding sibling heading of level 2 to 4, and that heading. -/
def prevHeader : List (Node × List Node) → Option Node
  | [] => none
  | (_, sibs) :: rest =>
    match sibs.find? isHeading234 with
    | some h => some h
    | none => prevHeader rest

/-- Record the marker for every canonical name contained in the heading
text; the key is the canonical name, or the full heading text for the
prefix-matched name. -/
def recordPlaceholder (headerText markerText : String)
    (pl : List (String × String)) : List (String × String) :=
  sections.foldl
    (fun pl sec =>
      if containsSub sec headerText then
        upsertKV (if sec = wnf then headerText else sec)
          (cleanText markerText) pl
      else pl) pl

/-- Step A: harvest "Date entered:" placeholders document-wide. -/
def datePlaceholders (root : Node) : List (String × String) :=
  (allCtx root).foldl
    (fun pl c =>
      match c.node with
      | .text s =>
        if containsSub "Date entered:" s then
          match prevHeader c.parents with
          | some h => recordPlaceholder (cleanText (nodeText h)) s pl
          | none => pl
        else pl
      | .elem _ _ _ _ => pl) []

/-- The structured container: `.app-details`, else `.content-blocks`. -/
def appDetails (root : Node) : Option Ctx :=
  match selectClass root "app-details" with
  | some c => some c
  | none => selectClass root "content-blocks"

/-- `container.select("h2, h3, h4")` with contexts, document order. -/
def headersB (ad : Ctx) : List Ctx :=
  (localCtx ad).filter (fun c => isHeading234 c.node)

/-- Step B heading scan: first heading whose cleaned text equals the
canonical name, or starts with it for the prefix-matched name; returns
the heading and the resolved display name. -/
def findHeaderB (sec : String) : List Ctx → Option (Ctx × String)
  | [] => none
  | h :: rest =>
    if sec = wnf then
      if pyStartsWith sec (cleanText (nodeText h.node)) then
        some (h, cleanText (nodeText h.node))
      else findHeaderB sec rest
    else
      if cleanText (nodeText h.node) = sec then some (h, sec)
      else findHeaderB sec rest

/-- Nearest ancestor div carrying the `block` class token. -/
def blockDiv (parents : List (Node × List Node)) : Option Node :=
  (parents.find?
    (fun p => isTag p.1 "div" && (classesOf p.1).contains "block")).map
    (fun p => p.1)

/-- CSS `p, .large, .details` membership. -/
def isContentSel (n : Node) : Bool :=
  isTag n "p" || (classesOf n).contains "large" ||
    (classesOf n).contains "details"

/-- `" ".join` over strings. -/
def joinSp : List String → String
  | [] => ""
  | [s] => s
  | s :: t :: rest => s ++ " " ++ joinSp (t :: rest)

/-- Step B structured extraction inside the nearest block div: collect
content elements, drop the heading itself and any element whose text
contains the canonical name, join the non-empty stripped texts. -/
def structuredContent (sec : String) (header : Node) (sdiv : Node) : String :=
  let ces := (descNodes sdiv).filter isContentSel
  if ces.isEmpty then ""
  else
    let kept := ces.filter
      (fun e => !(e == header) && !(containsSub sec (nodeText e)))
    joinSp ((kept.map (fun e => pyStrip (nodeText e))).filter
      (fun s => s ≠ ""))

/-- Step B sibling walk: accumulate paragraph and details-div text from
following siblings, stopping at any heading of level 1 to 4. -/
def walkB (sibs : List Node) (content : String) : String :=
  match sibs with
  | [] => content
  | n :: rest =>
    if isTag n "h1" || isHeading234 n then content
    else if isTag n "p" || (isTag n "div" && (classesOf n).contains "details")
    then walkB rest (content ++ " " ++ pyStrip (nodeText n))
    else walkB rest content

/-- Shared emission for a section (source lines 208-211 and 252-255):
record the cleaned content when non-empty, else the placeholder when
present, else nothing. -/
def emitSection (pl : List (String × String)) (name : String)
    (c2 : String) (r : Record) : Record :=
  if c2 ≠ "" then upsertKV name (Val.str (cleanText c2)) r
  else
    match lookupKV name pl with
    | some v => upsertKV name (Val.str v) r
    | none => r

/-- Step B final emission: first substitute the placeholder when the
walked content is empty (source line 204), then emit. -/
def finishSection (pl : List (String × String)) (name : String)
    (content : String) (r : Record) : Record :=
  emitSection pl name
    (if content = "" then
      match lookupKV name pl with
      | some v => v
      | none => content
    else content) r

/-- Step B handling of one canonical name. -/
def stepBSection (pl : List (String × String)) (headers : List Ctx)
    (r : Record) (sec : String) : Record :=
  match findHeaderB sec headers with
  | none => r
  | some (hc, name) =>
    let c1 :=
      match blockDiv hc.parents with
      | some sdiv => structuredContent sec hc.node sdiv
      | none => ""
    let c2 := if c1 = "" then walkB hc.nextSibs "" else c1
    finishSection pl name c2 r

/-- Step B: the structured-container strategy. -/
def stepB (root : Node) (pl : List (String × String)) (r : Record) : Record :=
  match appDetails root with
  | none => r
  | some ad => sections.foldl (stepBSection pl (headersB ad)) r

/-- The guard of Step C: some literal canonical name is already a key. -/
def stepCGuard (r : Record) : Bool :=
  sections.any (fun s => (lookupKV s r).isSome)

/-- Step C root: `.app-details`, else `main`, else `body`. -/
def mainContent (root : Node) : Option Ctx :=
  match selectClass root "app-details" with
  | some c => some c
  | none =>
    match selectTag root "main" with
    | some c => some c
    | none => selectTag root "body"

/-- Step C heading filter: level 2 to 4 heading whose single string
child strips to the canonical name (or starts with it for the
prefix-matched name). -/
def matchesC (sec : String) (n : Node) : Bool :=
  isHeading234 n &&
    (match nodeString n with
     | some s =>
       if s = "" then false
       else if sec = wnf then pyStartsWith sec (pyStrip s)
       else pyStrip s == sec
     | none => false)

/-- All Step C headings for a canonical name, in document order. -/
def headersC (mc : Ctx) (sec : String) : List Ctx :=
  (localCtx mc).filter (fun c => matchesC sec c.node)

/-- Step C sibling walk: look at up to five following siblings, stop at
a heading of level 2 to 4, accumulate paragraphs and any text-bearing
node. -/
def walkC : Nat → List Node → String → String
  | 0, _, content => content
  | Nat.succ _, [], content => content
  | Nat.succ k, n :: rest, content =>
    if isHeading234 n then content
    else if isTag n "p" || pyStrip (nodeText n) ≠ "" then
      walkC k rest (content ++ " " ++ pyStrip (nodeText n))
    else walkC k rest content

/-- Step C handling of one matched heading. -/
def stepCHeader (pl : List (String × String)) (r : Record) (h : Ctx) :
    Record :=
  emitSection pl (cleanText (nodeText h.node)) (walkC 5 h.nextSibs "") r

/-- Step C handling of one canonical name: every matched heading is
processed, in document order. -/
def stepCSection (pl : List (String × String)) (mc : Ctx) (r : Record)
    (sec : String) : Record :=
  (headersC mc sec).foldl (stepCHeader pl) r

/-- Step C: the document-wide fallback, guarded on the literal
canonical keys. -/
def stepC (root : Node) (pl : List (String × String)) (r : Record) :
    Record :=
  if stepCGuard r then r
  else
    match mainContent root with
    | none => r
    | some mc => sections.foldl (stepCSection pl mc) r

/-- Insert a key only when a value was found. -/
def optUpsert (k : String) (v : Option Val) (r : Record) : Record :=
  match v with
  | some v => upsertKV k v r
  | none => r

/-- The grade-fields value: present only when at least one grade input
exists. -/
def gradeFieldsVal (root : Node) : Option Val :=
  match gradeInputs root with
  | [] => none
  | gs => some (Val.dict (gradesDict gs))

/-- Metadata, title and description extraction, in source order. -/
def preSections (root : Node) : Record :=
  optUpsert "description" ((descriptionValue root).map Val.str)
    (optUpsert "title" ((titleValue root).map Val.str)
      (optUpsert "submission_judging_id" ((judgingId root).map Val.str)
        (optUpsert "grade_fields" (gradeFieldsVal root)
          (optUpsert "authenticity_token"
            ((authTokenValue root).map Val.str) []))))

/-- The record after metadata extraction and Step B. -/
def parseUpToB (root : Node) : Record :=
  stepB root (datePlaceholders root) (preSections root)

/-- Default one key to the empty string when absent. -/
def ensureKey (k : String) (r : Record) : Record :=
  if (lookupKV k r).isSome then r else upsertKV k (Val.str "") r

/-- Final cleanup: default `title` and `description` to `""`. -/
def cleanup (r : Record) : Record :=
  ensureKey "description" (ensureKey "title" r)

/-- Embedding of `parse_project_page`. -/
def parse (root : Node) : Record :=
  cleanup (stepC root (datePlaceholders root) (parseUpToB root))

/-- Keys that a section entry can be recorded under: a literal
canonical name, or a resolved name beginning with the prefix-matched
canonical name. -/
def isSectionKeyish (k : String) : Bool :=
  decide (k ∈ sections) || pyStartsWith wnf k

/-! ### Concrete documents used as witnesses and counterexamples -/

/-- Element without attributes or classes. -/
def el (tag : String) (children : List Node) : Node :=
  Node.elem tag [] [] (nl children)

/-- A document whose only content is an authenticity-token input with
no value attribute. -/
def docAuthNoValue : Node :=
  el "[document]"
    [el "html"
      [el "body"
        [Node.elem "input" [("name", "authenticity_token")] [] NodeList.nil]]]

/-- A document with one grade input that has no value attribute and a
second one, for the same criterion id, further down with a value. -/
def docGrades : Node :=
  el "[document]"
    [el "html"
      [el "body"
        [Node.elem "input" [("name", "grades[42]")] [] NodeList.nil,
         Node.elem "input" [("name", "grades[7]"), ("value", "3")] []
           NodeList.nil]]]

/-- The empty document. -/
def docEmpty : Node :=
  el "[document]" []

/-- A document with an authenticity-token input carrying a value. -/
def docAuthVal : Node :=
  el "[document]"
    [el "html"
      [el "body"
        [Node.elem "input"
          [("name", "authenticity_token"), ("value", "tok")] []
          NodeList.nil]]]

/-- A level-2 heading with a single text child. -/
def hh (s : String) : Node := el "h2" [Node.text s]

/-- A level-1 heading with a single text child. -/
def h1n (s : String) : Node := el "h1" [Node.text s]

/-- A paragraph with a single text child. -/
def pp (s : String) : Node := el "p" [Node.text s]

/-- A span with a single text child. -/
def sp (s : String) : Node := el "span" [Node.text s]

/-- The seven canonical headings, each followed by one paragraph. -/
def secChildren (t1 t2 t3 t4 t5 t6 t7 : String) : List Node :=
  [hh "Inspiration", pp t1,
   hh "What it does", pp t2,
   hh "How we built it", pp t3,
   hh "Challenges we ran into", pp t4,
   hh "Accomplishments that we\x27re proud of", pp t5,
   hh "What we learned", pp t6,
   hh "What\x27s next for", pp t7]

/-- A document with a structured `.app-details` container holding all
seven canonical headings, each followed by one paragraph. -/
def docStructured (t1 t2 t3 t4 t5 t6 t7 : String) : Node :=
  el "[document]"
    [el "html"
      [el "body"
        [Node.elem "div" [] ["app-details"]
          (nl (secChildren t1 t2 t3 t4 t5 t6 t7))]]]

/-- The same headings and paragraphs at top level in the body, with no
structured container. -/
def docFlat (t1 t2 t3 t4 t5 t6 t7 : String) : Node :=
  el "[document]"
    [el "html"
      [el "body" (secChildren t1 t2 t3 t4 t5 t6 t7)]]

/-- A document whose Step B emits only a resolved prefix-matched entry:
the container holds a single What-next heading whose sibling walk sees
a span (ignored by Step B, text-bearing for Step C) and a paragraph. -/
def docPrefixOnly : Node :=
  el "[document]"
    [el "html"
      [el "body"
        [Node.elem "div" [] ["app-details"]
          (nl [hh "What\x27s next for Foo", sp "extra", pp "bar"])]]]

/-- A document with two equal canonical headings in the Step C root,
each followed by its own paragraph. -/
def docDupHeadings : Node :=
  el "[document]"
    [el "html"
      [el "body"
        [hh "Inspiration", pp "first", hh "Inspiration", pp "second"]]]

/-- A document where a marker text node sits under a heading that only
contains the canonical name as an inner substring, together with an
empty exact heading that surfaces the placeholder. -/
def docInnerSubstring : Node :=
  el "[document]"
    [el "html"
      [el "body"
        [hh "Inspiration",
         hh "My Inspiration Story",
         el "div" [Node.text "Date entered: 2024-01-01"]]]]

/-- A document whose Step C walk meets a level-1 heading between the
matched heading and a paragraph. -/
def docH1Break : Node :=
  el "[document]"
    [el "html"
      [el "body"
        [hh "Inspiration", h1n "X", pp "y"]]]

/-- A document-wide heading followed by a single empty paragraph: the
sibling walk appends the separator space for the paragraph, so the raw
content is the non-empty one-space string and the section key is
emitted with the cleaned value `""`. -/
def docEmptySec : Node :=
  el "[document]"
    [el "html"
      [el "body"
        [hh "Inspiration", pp ""]]]

/-- The Step B heading filter, as a predicate: equality of the cleaned
text, or the prefix test for the prefix-matched canonical name. -/
def matchB (sec : String) (h : Ctx) : Bool :=
  if sec = wnf then pyStartsWith sec (cleanText (nodeText h.node))
  else cleanText (nodeText h.node) == sec

/-- The display name a matched Step B heading resolves to. -/
def resolveB (sec : String) (h : Ctx) : String :=
  if sec = wnf then cleanText (nodeText h.node) else sec

/-- The value a Step C heading contributes, if any: the cleaned walk
content when non-empty, else the placeholder for its resolved name. -/
def headerYield (pl : List (String × String)) (h : Ctx) : Option Val :=
  if walkC 5 h.nextSibs "" ≠ "" then
    some (Val.str (cleanText (walkC 5 h.nextSibs "")))
  else (lookupKV (cleanText (nodeText h.node)) pl).map Val.str

/-- A single heading context used to witness the Step B scan. -/
def ctxIns : Ctx :=
  ⟨hh "Inspiration", [], [], []⟩

/-! ### Lemmas about the text normalizer -/

/-- Drop the trailing whitespace run. -/
def stripR (l : List Char) : List Char :=
  (l.reverse.dropWhile isPySpace).reverse

/-- Concatenation of a word list, proof-side. -/
def catW : List (List Char) → List Char
  | [] => []
  | w :: ws2 => w ++ catW ws2

/-- Every value of a placeholder table is a normalizer image. -/
def PlClean (pl : List (String × String)) : Prop :=
  ∀ k v, lookupKV k pl = some v → ∃ x, v = cleanText x

/-- Every string value of a record under a title, description or
section key is a normalizer image. -/
def RecClean (r : Record) : Prop :=
  ∀ k s, lookupKV k r = some (Val.str s) →
    (k = "title" ∨ k = "description" ∨ isSectionKeyish k = true) →
    ∃ x, s = cleanText x

theorem stripChars_eq (l : List Char) :
    stripChars l = stripR (l.dropWhile isPySpace) := rfl

theorem dropWhile_of_all_false (p : Char → Bool) :
    ∀ m : List Char, (∀ c ∈ m, p c = false) → m.dropWhile p = m := by
  intro m h
  induction m with
  | nil => rfl
  | cons c cs _ =>
    simp [List.dropWhile, h c (by simp)]

theorem dropWhile_of_all_true (p : Char → Bool) :
    ∀ m : List Char, (∀ c ∈ m, p c = true) → m.dropWhile p = [] := by
  intro m h
  induction m with
  | nil => rfl
  | cons c cs ih =>
    simp only [List.dropWhile, h c (by simp)]
    exact ih (fun x hx => h x (by simp [hx]))

theorem takeWhile_of_all_true (p : Char → Bool) :
    ∀ m : List Char, (∀ c ∈ m, p c = true) → m.takeWhile p = m := by
  intro m h
  induction m with
  | nil => rfl
  | cons c cs ih =>
    simp only [List.takeWhile, h c (by simp)]
    simp [ih (fun x hx => h x (by simp [hx]))]

theorem head_dropWhile_false (p : Char → Bool) :
    ∀ (l : List Char) (c : Char) (cr : List Char),
      l.dropWhile p = c :: cr → p c = false := by
  intro l
  induction l with
  | nil => intro c cr h; simp [List.dropWhile] at h
  | cons a as ih =>
    intro c cr h
    by_cases hp : p a = true
    · exact ih c cr (by simpa [List.dropWhile_cons, hp] using h)
    · have hpa : p a = false := by simpa using hp
      rw [List.dropWhile_cons, hpa] at h
      simp only [Bool.false_eq_true, if_false] at h
      cases h
      exact hpa

theorem dropWhile_collapse_true :
    ∀ l : List Char,
      (collapseAux true l).dropWhile isPySpace = collapseAux true l := by
  intro l
  induction l with
  | nil => rfl
  | cons c cs ih =>
    by_cases h : isPySpace c = true
    · simpa [collapseAux, h] using ih
    · simp only [Bool.not_eq_true] at h
      simp [collapseAux, h, List.dropWhile]

theorem dropWhile_collapse_false :
    ∀ l : List Char,
      (collapseAux false l).dropWhile isPySpace = collapseAux true l := by
  intro l
  induction l with
  | nil => rfl
  | cons c cs _ =>
    have hsp : isPySpace ' ' = true := by decide
    by_cases h : isPySpace c = true
    · simp [collapseAux, h, List.dropWhile_cons, hsp, dropWhile_collapse_true]
    · simp only [Bool.not_eq_true] at h
      simp [collapseAux, h, List.dropWhile_cons]

theorem collapse_word (w : List Char) :
    ∀ (b : Bool) (r : List Char), w ≠ [] →
      (∀ c ∈ w, isPySpace c = false) →
      collapseAux b (w ++ r) = w ++ collapseAux false r := by
  induction w with
  | nil => intro b r h; exact absurd rfl h
  | cons c w' ih =>
    intro b r _ hw
    have hc : isPySpace c = false := hw c (by simp)
    by_cases hw' : w' = []
    · subst hw'; simp [collapseAux, hc]
    · have := ih false r hw' (fun x hx => hw x (by simp [hx]))
      simp [collapseAux, hc, this]

theorem collapse_true_allws :
    ∀ l : List Char, (∀ c ∈ l, isPySpace c = true) →
      collapseAux true l = [] := by
  intro l h
  induction l with
  | nil => rfl
  | cons c cs ih =>
    simp only [collapseAux, h c (by simp), if_true]
    exact ih (fun x hx => h x (by simp [hx]))

theorem stripR_of_all_nonws (l : List Char)
    (h : ∀ c ∈ l, isPySpace c = false) : stripR l = l := by
  unfold stripR
  rw [dropWhile_of_all_false isPySpace l.reverse
    (fun c hc => h c (List.mem_reverse.mp hc))]
  exact l.reverse_reverse

theorem stripR_append_of_ne (x y : List Char) (h : stripR y ≠ []) :
    stripR (x ++ y) = x ++ stripR y := by
  unfold stripR at *
  have hy : y.reverse.dropWhile isPySpace ≠ [] := by
    intro hz; exact h (by rw [hz]; rfl)
  rw [List.reverse_append, List.dropWhile_append]
  simp only [List.isEmpty_iff, hy, if_false]
  rw [List.reverse_append, List.reverse_reverse]

theorem stripR_append_allws (x s : List Char)
    (h : ∀ c ∈ s, isPySpace c = true) : stripR (x ++ s) = stripR x := by
  unfold stripR
  rw [List.reverse_append, List.dropWhile_append,
    dropWhile_of_all_true isPySpace s.reverse
      (fun c hc => h c (List.mem_reverse.mp hc))]
  rfl

theorem wordsOf_nil : wordsOf [] = [] := by
  simp [wordsOf]

theorem wordsOf_ws_cons (c : Char) (cs : List Char)
    (h : isPySpace c = true) : wordsOf (c :: cs) = wordsOf cs := by
  simp [wordsOf, h]

theorem wordsOf_nonws_cons (c : Char) (cs : List Char)
    (h : isPySpace c = false) :
    wordsOf (c :: cs) =
      ((c :: cs).takeWhile (fun x => !isPySpace x)) ::
        wordsOf (cs.dropWhile (fun x => !isPySpace x)) := by
  simp [wordsOf, h]

theorem words_nonempty (l : List Char) :
    ∀ w ∈ wordsOf l, w ≠ [] := by
  induction l using wordsOf.induct with
  | case1 => intro w hw; simp [wordsOf] at hw
  | case2 c cs h ih =>
    rw [wordsOf_ws_cons c cs (by simpa using h)]
    exact ih
  | case3 c cs h ih =>
    have hc : isPySpace c = false := by simpa using h
    rw [wordsOf_nonws_cons c cs hc]
    intro w hw
    rcases List.mem_cons.mp hw with h1 | h2
    · subst h1
      simp [List.takeWhile, hc]
    · exact ih w h2

theorem words_nonws (l : List Char) :
    ∀ w ∈ wordsOf l, ∀ c ∈ w, isPySpace c = false := by
  induction l using wordsOf.induct with
  | case1 => intro w hw; simp [wordsOf] at hw
  | case2 c cs h ih =>
    rw [wordsOf_ws_cons c cs (by simpa using h)]
    exact ih
  | case3 c cs h ih =>
    have hc : isPySpace c = false := by simpa using h
    rw [wordsOf_nonws_cons c cs hc]
    intro w hw
    rcases List.mem_cons.mp hw with h1 | h2
    · subst h1
      intro x hx
      have := List.mem_takeWhile_imp hx
      simpa using this
    · exact ih w h2

theorem wordsOf_nil_of_allws :
    ∀ l : List Char, (∀ c ∈ l, isPySpace c = true) → wordsOf l = [] := by
  intro l
  induction l with
  | nil => intro _; exact wordsOf_nil
  | cons c cs ih =>
    intro h
    rw [wordsOf_ws_cons c cs (h c (by simp))]
    exact ih (fun x hx => h x (by simp [hx]))

theorem allws_of_wordsOf_nil :
    ∀ l : List Char, wordsOf l = [] → ∀ c ∈ l, isPySpace c = true := by
  intro l
  induction l using wordsOf.induct with
  | case1 => intro _ c hc; simp at hc
  | case2 c cs h ih =>
    intro hl x hx
    have hc : isPySpace c = true := by simpa using h
    rw [wordsOf_ws_cons c cs hc] at hl
    rcases List.mem_cons.mp hx with h1 | h2
    · subst h1; exact hc
    · exact ih hl x h2
  | case3 c cs h _ =>
    intro hl
    have hc : isPySpace c = false := by simpa using h
    rw [wordsOf_nonws_cons c cs hc] at hl
    cases hl

theorem joinW_ne_nil (w : List Char) (ws2 : List (List Char))
    (h : w ≠ []) : joinW (w :: ws2) ≠ [] := by
  cases ws2 with
  | nil => simpa [joinW] using h
  | cons v rest =>
    simp only [joinW]
    intro hc
    rcases List.append_eq_nil.mp hc with ⟨_, h2⟩
    cases h2

theorem joinW_cons (w v : List Char) (ws2 : List (List Char)) :
    joinW (w :: v :: ws2) = w ++ ' ' :: joinW (v :: ws2) := rfl

theorem stripR_collapse_split (w r : List Char)
    (hwne : w ≠ []) (hwnonws : ∀ c ∈ w, isPySpace c = false)
    (hrws : ∀ r0 r2, r = r0 :: r2 → isPySpace r0 = true)
    (ihr : stripR (collapseAux true r) = joinW (wordsOf r)) :
    stripR (collapseAux true (w ++ r)) = joinW (w :: wordsOf r) := by
  rw [collapse_word w true r hwne hwnonws]
  cases r with
  | nil =>
    show stripR (w ++ []) = joinW (w :: wordsOf [])
    rw [List.append_nil, stripR_of_all_nonws w hwnonws, wordsOf_nil]
    rfl
  | cons r0 r2 =>
    have hr0 : isPySpace r0 = true := hrws r0 r2 rfl
    have hcoll : collapseAux false (r0 :: r2) = ' ' :: collapseAux true r2 := by
      simp [collapseAux, hr0]
    have hwr : wordsOf (r0 :: r2) = wordsOf r2 := wordsOf_ws_cons r0 r2 hr0
    have hcoll2 : collapseAux true (r0 :: r2) = collapseAux true r2 := by
      simp [collapseAux, hr0]
    rw [hcoll, hwr]
    rw [hcoll2, hwr] at ihr
    cases hwords : wordsOf r2 with
    | nil =>
      rw [collapse_true_allws r2 (allws_of_wordsOf_nil r2 hwords)]
      show stripR (w ++ [' ']) = joinW [w]
      rw [stripR_append_allws w [' '] (by intro c2 hc2; simp at hc2; subst hc2; decide),
        stripR_of_all_nonws w hwnonws]
      rfl
    | cons w2 ws2 =>
      rw [hwords] at ihr
      have hjne : joinW (w2 :: ws2) ≠ [] :=
        joinW_ne_nil w2 ws2 (words_nonempty r2 w2 (by rw [hwords]; simp))
      have hstrip_ne : stripR (collapseAux true r2) ≠ [] := by
        rw [ihr]; exact hjne
      have hassoc : w ++ ' ' :: collapseAux true r2 =
          (w ++ [' ']) ++ collapseAux true r2 := by simp
      rw [hassoc, stripR_append_of_ne (w ++ [' ']) _ hstrip_ne, ihr,
        joinW_cons]
      simp

theorem stripR_collapse_true :
    ∀ l : List Char, stripR (collapseAux true l) = joinW (wordsOf l) := by
  intro l
  induction l using wordsOf.induct with
  | case1 => rw [wordsOf_nil]; rfl
  | case2 c cs h ih =>
    have hc : isPySpace c = true := by simpa using h
    rw [wordsOf_ws_cons c cs hc]
    simpa [collapseAux, hc] using ih
  | case3 c cs h ih =>
    have hc : isPySpace c = false := by simpa using h
    rw [wordsOf_nonws_cons c cs hc]
    have hdrop : List.dropWhile (fun x => !isPySpace x) (c :: cs) =
        List.dropWhile (fun x => !isPySpace x) cs := by
      simp [List.dropWhile_cons, hc]
    have hsplit : List.takeWhile (fun x => !isPySpace x) (c :: cs) ++
        List.dropWhile (fun x => !isPySpace x) cs = c :: cs := by
      rw [← hdrop]
      exact List.takeWhile_append_dropWhile _ _
    have hwne : List.takeWhile (fun x => !isPySpace x) (c :: cs) ≠ [] := by
      simp [List.takeWhile_cons, hc]
    have hwnonws : ∀ x ∈ List.takeWhile (fun x => !isPySpace x) (c :: cs),
        isPySpace x = false := by
      intro x hx
      simpa using List.mem_takeWhile_imp hx
    have hrws : ∀ r0 r2,
        List.dropWhile (fun x => !isPySpace x) cs = r0 :: r2 →
        isPySpace r0 = true := by
      intro r0 r2 hdr
      simpa using head_dropWhile_false (fun x => !isPySpace x) cs r0 r2 hdr
    have hmain := stripR_collapse_split
      (List.takeWhile (fun x => !isPySpace x) (c :: cs))
      (List.dropWhile (fun x => !isPySpace x) cs)
      hwne hwnonws hrws ih
    rw [hsplit] at hmain
    exact hmain

theorem cleanText_eq (s : String) :
    cleanText s = String.mk (joinW (wordsOf s.data)) := by
  unfold cleanText
  by_cases h : s = ""
  · subst h
    show ("" : String) = String.mk (joinW (wordsOf []))
    rw [wordsOf_nil]
    rfl
  · simp only [h, if_false]
    rw [stripChars_eq, dropWhile_collapse_false, stripR_collapse_true]

theorem takeWhile_all_append_stop (p : Char → Bool) (w : List Char)
    (d : Char) (t : List Char) (hw : ∀ c ∈ w, p c = true)
    (hd : p d = false) : (w ++ d :: t).takeWhile p = w := by
  induction w with
  | nil => simp [List.takeWhile_cons, hd]
  | cons a w2 ih =>
    simp [List.takeWhile_cons, hw a (by simp),
      ih (fun c hc => hw c (by simp [hc]))]

theorem dropWhile_all_append_stop (p : Char → Bool) (w : List Char)
    (d : Char) (t : List Char) (hw : ∀ c ∈ w, p c = true)
    (hd : p d = false) : (w ++ d :: t).dropWhile p = d :: t := by
  induction w with
  | nil => simp [List.dropWhile_cons, hd]
  | cons a w2 ih =>
    simp only [List.cons_append, List.dropWhile_cons, hw a (by simp)]
    simp only [if_true]
    exact ih (fun c hc => hw c (by simp [hc]))

theorem wordsOf_word_append (w t : List Char) (hwne : w ≠ [])
    (hw : ∀ c ∈ w, isPySpace c = false)
    (hstop : ∀ c0 t2, t = c0 :: t2 → isPySpace c0 = true) :
    wordsOf (w ++ t) = w :: wordsOf t := by
  cases w with
  | nil => exact absurd rfl hwne
  | cons c w2 =>
    have hc : isPySpace c = false := hw c (by simp)
    have hw2 : ∀ x ∈ w2, isPySpace x = false := fun x hx => hw x (by simp [hx])
    rw [List.cons_append, wordsOf_nonws_cons c (w2 ++ t) hc]
    cases t with
    | nil =>
      rw [List.append_nil]
      have h1 : (c :: w2).takeWhile (fun x => !isPySpace x) = c :: w2 :=
        takeWhile_of_all_true _ _ (fun x hx => by simp [hw x hx])
      have h2 : w2.dropWhile (fun x => !isPySpace x) = [] :=
        dropWhile_of_all_true _ w2 (fun x hx => by simp [hw2 x hx])
      rw [h1, h2]
    | cons c0 t2 =>
      have hc0 : isPySpace c0 = true := hstop c0 t2 rfl
      have ht : (c :: (w2 ++ c0 :: t2)) = (c :: w2) ++ c0 :: t2 := by simp
      have h1 : (c :: (w2 ++ c0 :: t2)).takeWhile (fun x => !isPySpace x) =
          c :: w2 := by
        rw [ht]
        exact takeWhile_all_append_stop _ (c :: w2) c0 t2
          (fun x hx => by simp [hw x hx]) (by simp [hc0])
      have h2 : (w2 ++ c0 :: t2).dropWhile (fun x => !isPySpace x) =
          c0 :: t2 :=
        dropWhile_all_append_stop _ w2 c0 t2
          (fun x hx => by simp [hw2 x hx]) (by simp [hc0])
      rw [h1, h2]

theorem wordsOf_joinW (W : List (List Char))
    (h1 : ∀ w ∈ W, w ≠ [])
    (h2 : ∀ w ∈ W, ∀ c ∈ w, isPySpace c = false) :
    wordsOf (joinW W) = W := by
  induction W with
  | nil => exact wordsOf_nil
  | cons w W2 ih =>
    cases W2 with
    | nil =>
      show wordsOf (joinW [w]) = [w]
      have : joinW [w] = w ++ [] := by simp [joinW]
      rw [this, wordsOf_word_append w [] (h1 w (by simp))
        (h2 w (by simp)) (fun c0 t2 h => by cases h), wordsOf_nil]
    | cons v W3 =>
      rw [joinW_cons]
      rw [wordsOf_word_append w (' ' :: joinW (v :: W3)) (h1 w (by simp))
        (h2 w (by simp)) (fun c0 t2 h => by cases h; decide)]
      rw [wordsOf_ws_cons ' ' _ (by decide)]
      rw [ih (fun x hx => h1 x (by simp [hx])) (fun x hx => h2 x (by simp [hx]))]

theorem cleanText_idem (s : String) :
    cleanText (cleanText s) = cleanText s := by
  rw [cleanText_eq s, cleanText_eq (String.mk (joinW (wordsOf s.data)))]
  show String.mk (joinW (wordsOf (joinW (wordsOf s.data)))) = _
  rw [wordsOf_joinW (wordsOf s.data) (words_nonempty s.data)
    (words_nonws s.data)]

theorem cleanText_allws (s : String)
    (h : ∀ c ∈ s.data, isPySpace c = true) : cleanText s = "" := by
  rw [cleanText_eq s, wordsOf_nil_of_allws s.data h]
  rfl

theorem filter_split_nonws (l : List Char) :
    l.filter (fun c => !isPySpace c) =
      l.takeWhile (fun c => !isPySpace c) ++
        (l.dropWhile (fun c => !isPySpace c)).filter (fun c => !isPySpace c) := by
  conv_lhs => rw [← List.takeWhile_append_dropWhile
    (p := fun c => !isPySpace c) (l := l)]
  rw [List.filter_append]
  congr 1
  exact List.filter_eq_self.mpr (fun a ha => by
    simpa using List.mem_takeWhile_imp ha)

theorem catW_wordsOf (l : List Char) :
    catW (wordsOf l) = l.filter (fun c => !isPySpace c) := by
  induction l using wordsOf.induct with
  | case1 => rw [wordsOf_nil]; rfl
  | case2 c cs h ih =>
    have hc : isPySpace c = true := by simpa using h
    rw [wordsOf_ws_cons c cs hc, List.filter_cons]
    simp only [hc]
    simpa using ih
  | case3 c cs h ih =>
    have hc : isPySpace c = false := by simpa using h
    rw [wordsOf_nonws_cons c cs hc]
    show (c :: cs).takeWhile (fun x => !isPySpace x) ++
      catW (wordsOf (cs.dropWhile (fun x => !isPySpace x))) = _
    rw [ih, filter_split_nonws (c :: cs)]
    congr 2
    simp [List.dropWhile_cons, hc]

theorem catW_joinW (W : List (List Char))
    (h2 : ∀ w ∈ W, ∀ c ∈ w, isPySpace c = false) :
    (joinW W).filter (fun c => !isPySpace c) = catW W := by
  induction W with
  | nil => rfl
  | cons w W2 ih =>
    cases W2 with
    | nil =>
      show (joinW [w]).filter (fun c => !isPySpace c) = w ++ catW []
      have hj : joinW [w] = w := rfl
      rw [hj, List.filter_eq_self.mpr
        (fun a ha => by simp [h2 w (by simp) a ha])]
      simp [catW]
    | cons v W3 =>
      rw [joinW_cons, List.filter_append, List.filter_cons]
      have hsp : (!isPySpace ' ') = false := by decide
      rw [hsp]
      show (w.filter fun c => !isPySpace c) ++
        ((joinW (v :: W3)).filter fun c => !isPySpace c) = w ++ catW (v :: W3)
      rw [List.filter_eq_self.mpr (fun a ha => by simp [h2 w (by simp) a ha]),
        ih (fun x hx => h2 x (by simp [hx]))]

theorem cleanText_filter (s : String) :
    (cleanText s).data.filter (fun c => !isPySpace c) =
      s.data.filter (fun c => !isPySpace c) := by
  rw [cleanText_eq s]
  show (joinW (wordsOf s.data)).filter (fun c => !isPySpace c) = _
  rw [catW_joinW (wordsOf s.data) (words_nonws s.data), catW_wordsOf]

theorem mem_joinW_ws (W : List (List Char))
    (h2 : ∀ w ∈ W, ∀ c ∈ w, isPySpace c = false) :
    ∀ c ∈ joinW W, isPySpace c = true → c = ' ' := by
  induction W with
  | nil => intro c hc; cases hc
  | cons w W2 ih =>
    cases W2 with
    | nil =>
      intro c hc hws
      exact absurd hws (by simp [h2 w (by simp) c hc])
    | cons v W3 =>
      rw [joinW_cons]
      intro c hc hws
      rcases List.mem_append.mp hc with h1 | hrest
      · exact absurd hws (by simp [h2 w (by simp) c h1])
      · rcases List.mem_cons.mp hrest with he | hmem
        · exact he
        · exact ih (fun x hx => h2 x (by simp [hx])) c hmem hws

theorem cleanText_ws_is_space (s : String) :
    ∀ c ∈ (cleanText s).data, isPySpace c = true → c = ' ' := by
  rw [cleanText_eq s]
  exact mem_joinW_ws (wordsOf s.data) (words_nonws s.data)

theorem joinW_head_nonws (W : List (List Char))
    (h1 : ∀ w ∈ W, w ≠ [])
    (h2 : ∀ w ∈ W, ∀ c ∈ w, isPySpace c = false) :
    ∀ c, (joinW W).head? = some c → isPySpace c = false := by
  intro c hc
  cases W with
  | nil => cases hc
  | cons w W2 =>
    have hw : w ≠ [] := h1 w (by simp)
    cases w with
    | nil => exact absurd rfl hw
    | cons a w2 =>
      have : (joinW ((a :: w2) :: W2)).head? = some a := by
        cases W2 with
        | nil => rfl
        | cons v W3 => rw [joinW_cons]; rfl
      rw [this] at hc
      cases hc
      exact h2 (c :: w2) (by simp) c (by simp)

theorem joinW_getLast_nonws (W : List (List Char))
    (h1 : ∀ w ∈ W, w ≠ [])
    (h2 : ∀ w ∈ W, ∀ c ∈ w, isPySpace c = false) :
    ∀ c, (joinW W).getLast? = some c → isPySpace c = false := by
  induction W with
  | nil => intro c hc; cases hc
  | cons w W2 ih =>
    cases W2 with
    | nil =>
      intro c hc
      have hcm : c ∈ w := List.mem_of_mem_getLast? hc
      exact h2 w (by simp) c hcm
    | cons v W3 =>
      intro c hc
      rw [joinW_cons] at hc
      have hne : joinW (v :: W3) ≠ [] := joinW_ne_nil v W3 (h1 v (by simp))
      rw [List.getLast?_append_of_ne_nil _ (by simp)] at hc
      have : (' ' :: joinW (v :: W3)) = [' '] ++ joinW (v :: W3) := rfl
      rw [this, List.getLast?_append_of_ne_nil _ hne] at hc
      exact ih (fun x hx => h1 x (by simp [hx]))
        (fun x hx => h2 x (by simp [hx])) c hc

theorem cleanText_head_nonws (s : String) :
    ∀ c, (cleanText s).data.head? = some c → isPySpace c = false := by
  rw [cleanText_eq s]
  exact joinW_head_nonws (wordsOf s.data) (words_nonempty s.data)
    (words_nonws s.data)

theorem cleanText_getLast_nonws (s : String) :
    ∀ c, (cleanText s).data.getLast? = some c → isPySpace c = false := by
  rw [cleanText_eq s]
  exact joinW_getLast_nonws (wordsOf s.data) (words_nonempty s.data)
    (words_nonws s.data)

theorem wordsOf_dropWhile_ws (l : List Char) :
    wordsOf (l.dropWhile isPySpace) = wordsOf l := by
  induction l with
  | nil => rfl
  | cons c cs ih =>
    by_cases hc : isPySpace c = true
    · simp [List.dropWhile_cons, hc, ih, wordsOf_ws_cons c cs hc]
    · have hcf : isPySpace c = false := by simpa using hc
      rw [List.dropWhile_cons, hcf]
      simp

theorem wordsOf_append_allws (x s : List Char)
    (hs : ∀ c ∈ s, isPySpace c = true) : wordsOf (x ++ s) = wordsOf x := by
  induction x using wordsOf.induct with
  | case1 =>
    rw [List.nil_append, wordsOf_nil]
    exact wordsOf_nil_of_allws s hs
  | case2 c cs h ih =>
    have hc : isPySpace c = true := by simpa using h
    rw [List.cons_append, wordsOf_ws_cons c _ hc, ih, wordsOf_ws_cons c cs hc]
  | case3 c cs h ih =>
    have hc : isPySpace c = false := by simpa using h
    have hdrop : List.dropWhile (fun x => !isPySpace x) (c :: cs) =
        List.dropWhile (fun x => !isPySpace x) cs := by
      simp [List.dropWhile_cons, hc]
    have hsplit : List.takeWhile (fun x => !isPySpace x) (c :: cs) ++
        List.dropWhile (fun x => !isPySpace x) cs = c :: cs := by
      rw [← hdrop]
      exact List.takeWhile_append_dropWhile _ _
    have hwne : List.takeWhile (fun x => !isPySpace x) (c :: cs) ≠ [] := by
      simp [List.takeWhile_cons, hc]
    have hwnonws : ∀ y ∈ List.takeWhile (fun x => !isPySpace x) (c :: cs),
        isPySpace y = false := by
      intro y hy
      simpa using List.mem_takeWhile_imp hy
    have hrws : ∀ r0 r2,
        List.dropWhile (fun x => !isPySpace x) cs = r0 :: r2 →
        isPySpace r0 = true := by
      intro r0 r2 hdr
      simpa using head_dropWhile_false (fun x => !isPySpace x) cs r0 r2 hdr
    have hstop1 : ∀ c0 t2,
        List.dropWhile (fun x => !isPySpace x) cs ++ s = c0 :: t2 →
        isPySpace c0 = true := by
      intro c0 t2 hdr
      cases hd : List.dropWhile (fun x => !isPySpace x) cs with
      | nil =>
        rw [hd, List.nil_append] at hdr
        exact hs c0 (by rw [hdr]; simp)
      | cons r0 r2 =>
        rw [hd, List.cons_append] at hdr
        cases hdr
        exact hrws c0 r2 hd
    calc wordsOf ((c :: cs) ++ s)
        = wordsOf ((List.takeWhile (fun x => !isPySpace x) (c :: cs) ++
            List.dropWhile (fun x => !isPySpace x) cs) ++ s) := by rw [hsplit]
      _ = wordsOf (List.takeWhile (fun x => !isPySpace x) (c :: cs) ++
            (List.dropWhile (fun x => !isPySpace x) cs ++ s)) := by
            rw [List.append_assoc]
      _ = List.takeWhile (fun x => !isPySpace x) (c :: cs) ::
            wordsOf (List.dropWhile (fun x => !isPySpace x) cs ++ s) :=
            wordsOf_word_append _ _ hwne hwnonws hstop1
      _ = List.takeWhile (fun x => !isPySpace x) (c :: cs) ::
            wordsOf (List.dropWhile (fun x => !isPySpace x) cs) := by rw [ih]
      _ = wordsOf ((c :: cs)) := by
            rw [← wordsOf_word_append _ _ hwne hwnonws hrws, hsplit]

theorem stripR_decomp (l : List Char) :
    ∃ s, l = stripR l ++ s ∧ ∀ c ∈ s, isPySpace c = true := by
  refine ⟨(l.reverse.takeWhile isPySpace).reverse, ?_, ?_⟩
  · have key : stripR l ++ (l.reverse.takeWhile isPySpace).reverse = l := by
      rw [stripR, ← List.reverse_append, List.takeWhile_append_dropWhile]
      exact l.reverse_reverse
    exact key.symm
  · intro c hc
    rw [List.mem_reverse] at hc
    exact List.mem_takeWhile_imp hc

theorem wordsOf_stripR (l : List Char) :
    wordsOf (stripR l) = wordsOf l := by
  obtain ⟨s, hl, hs⟩ := stripR_decomp l
  conv_rhs => rw [hl]
  rw [wordsOf_append_allws _ s hs]

theorem wordsOf_stripChars (l : List Char) :
    wordsOf (stripChars l) = wordsOf l := by
  rw [stripChars_eq, wordsOf_stripR, wordsOf_dropWhile_ws]

theorem cleanText_pyStrip (s : String) :
    cleanText (pyStrip s) = cleanText s := by
  rw [cleanText_eq, cleanText_eq]
  show String.mk (joinW (wordsOf (stripChars s.data))) = _
  rw [wordsOf_stripChars]

theorem string_append_data (a b : String) :
    (a ++ b).data = a.data ++ b.data := rfl

theorem cleanText_space_append (s : String) :
    cleanText (" " ++ s) = cleanText s := by
  rw [cleanText_eq, cleanText_eq]
  show String.mk (joinW (wordsOf (' ' :: s.data))) = _
  rw [wordsOf_ws_cons ' ' s.data (by decide)]

theorem space_append_ne_empty (s : String) : (" " ++ s) ≠ "" := by
  intro h
  have := congrArg String.data h
  rw [string_append_data] at this
  cases this

theorem append_space_append_ne_empty (a b : String) :
    (a ++ " " ++ b) ≠ "" := by
  intro h
  have := congrArg String.data h
  rw [string_append_data, string_append_data] at this
  rcases List.append_eq_nil.mp this with ⟨h1, _⟩
  rcases List.append_eq_nil.mp h1 with ⟨_, h3⟩
  cases h3

/-- C9: the text normalizer maps empty and whitespace-only input to
`""`; otherwise it collapses every whitespace run to a single space and
trims both ends (it equals the single-space join of the whitespace
separated words, preserves the non-whitespace characters, emits only
the plain space as whitespace, and starts and ends with non-whitespace
characters); and it is idempotent. -/
theorem C9_cleanText_normalizer (s : String) :
    ((∀ c ∈ s.data, isPySpace c = true) → cleanText s = "") ∧
    (cleanText s).data = joinW (wordsOf s.data) ∧
    (cleanText s).data.filter (fun c => !isPySpace c) =
      s.data.filter (fun c => !isPySpace c) ∧
    (∀ c ∈ (cleanText s).data, isPySpace c = true → c = ' ') ∧
    (∀ c, (cleanText s).data.head? = some c → isPySpace c = false) ∧
    (∀ c, (cleanText s).data.getLast? = some c → isPySpace c = false) ∧
    cleanText (cleanText s) = cleanText s :=
  ⟨cleanText_allws s,
   congrArg String.data (cleanText_eq s),
   cleanText_filter s,
   cleanText_ws_is_space s,
   cleanText_head_nonws s,
   cleanText_getLast_nonws s,
   cleanText_idem s⟩

/-- Witness for C9 at a concrete whitespace-only input. -/
theorem C9_cleanText_normalizer_witness : cleanText " \t\n " = "" :=
  (C9_cleanText_normalizer " \t\n ").1 (by decide)

/-! ### Record and key lemmas -/

theorem lookup_upsert_self {α : Type} (k : String) (v : α) :
    ∀ l : List (String × α), lookupKV k (upsertKV k v l) = some v := by
  intro l
  induction l with
  | nil => simp [upsertKV, lookupKV]
  | cons p rest ih =>
    obtain ⟨k2, v2⟩ := p
    by_cases h : k2 = k
    · simp [upsertKV, lookupKV, h]
    · simp [upsertKV, lookupKV, h, ih]

theorem lookup_upsert_ne {α : Type} (k k2 : String) (v : α)
    (hne : k ≠ k2) :
    ∀ l : List (String × α), lookupKV k2 (upsertKV k v l) = lookupKV k2 l := by
  intro l
  induction l with
  | nil => simp [upsertKV, lookupKV, hne]
  | cons p rest ih =>
    obtain ⟨k3, v3⟩ := p
    by_cases h : k3 = k
    · subst h
      simp [upsertKV, lookupKV, hne]
    · simp [upsertKV, lookupKV, h, ih]

theorem string_append_empty (s : String) : s ++ "" = s := by
  cases s with
  | mk l =>
    show String.mk (l ++ []) = String.mk l
    rw [List.append_nil]

theorem nodeString_text : ∀ (n : Node) (s : String),
    nodeString n = some s → nodeText n = s
  | .text _, s, h => by
    injection h with h2
  | .elem t a cls (.cons c .nil), s, h => by
    have h2 : nodeString c = some s := by
      simpa only [nodeString] using h
    have hrec := nodeString_text c s h2
    show nodeTextList (NodeList.cons c NodeList.nil) = s
    rw [nodeTextList, nodeTextList, string_append_empty]
    exact hrec
  | .elem t a cls .nil, s, h => by
    simp only [nodeString] at h
    cases h
  | .elem t a cls (.cons c (.cons d rest)), s, h => by
    simp only [nodeString] at h
    cases h

theorem sections_cleanText_fixed :
    ∀ sec ∈ sections, cleanText sec = sec := by decide

theorem joinW_cons_exists (w : List Char) (ws2 : List (List Char)) :
    ∃ x, joinW (w :: ws2) = w ++ x := by
  cases ws2 with
  | nil => exact ⟨[], by simp [joinW]⟩
  | cons v rest => exact ⟨' ' :: joinW (v :: rest), rfl⟩

theorem wnf_prefix_cleanText (s : String)
    (h : pyStartsWith wnf (pyStrip s) = true) :
    pyStartsWith wnf (cleanText s) = true := by
  rw [pyStartsWith, List.isPrefixOf_iff_prefix] at h ⊢
  obtain ⟨r, hr⟩ := h
  have hdata : (pyStrip s).data = stripChars s.data := rfl
  rw [hdata] at hr
  have hwords : wordsOf s.data = wordsOf (wnf.data ++ r) := by
    rw [← wordsOf_stripChars s.data, hr]
  have hw1 : ("What\x27s".data : List Char) ≠ [] := by decide
  have hw1n : ∀ c ∈ ("What\x27s".data : List Char), isPySpace c = false := by
    decide
  have hw2 : ("next".data : List Char) ≠ [] := by decide
  have hw2n : ∀ c ∈ ("next".data : List Char), isPySpace c = false := by
    decide
  have hassoc : wnf.data ++ r =
      "What\x27s".data ++ (' ' :: ("next".data ++ (' ' :: ("for".data ++ r)))) :=
    rfl
  have hstep1 : wordsOf (wnf.data ++ r) =
      "What\x27s".data :: wordsOf ("next".data ++ (' ' :: ("for".data ++ r))) := by
    rw [hassoc, wordsOf_word_append _ _ hw1 hw1n
      (fun c0 t2 hc => by
        rw [List.cons_eq_cons] at hc
        rw [← hc.1]
        decide),
      wordsOf_ws_cons ' ' _ (by decide)]
  have hstep2 : wordsOf ("next".data ++ (' ' :: ("for".data ++ r))) =
      "next".data :: wordsOf ("for".data ++ r) := by
    rw [wordsOf_word_append _ _ hw2 hw2n
      (fun c0 t2 hc => by
        rw [List.cons_eq_cons] at hc
        rw [← hc.1]
        decide),
      wordsOf_ws_cons ' ' _ (by decide)]
  have hfor : wordsOf ("for".data ++ r) =
      ("for".data ++ r.takeWhile (fun x => !isPySpace x)) ::
        wordsOf (r.dropWhile (fun x => !isPySpace x)) := by
    show wordsOf ('f' :: 'o' :: 'r' :: r) = _
    rw [wordsOf_nonws_cons 'f' ('o' :: 'r' :: r) (by decide)]
    rfl
  rw [cleanText_eq]
  show wnf.data <+: joinW (wordsOf s.data)
  rw [hwords, hstep1, hstep2, hfor]
  obtain ⟨x, hx⟩ := joinW_cons_exists
    ("for".data ++ r.takeWhile (fun x => !isPySpace x))
    (wordsOf (r.dropWhile (fun x => !isPySpace x)))
  rw [joinW_cons, joinW_cons, hx]
  exact ⟨r.takeWhile (fun x => !isPySpace x) ++ x, rfl⟩

/-! ### Key preservation through the pipeline -/

theorem lookup_optUpsert_self (k : String) (v : Option Val) (r : Record) :
    lookupKV k (optUpsert k v r) =
      match v with
      | some v => some v
      | none => lookupKV k r := by
  cases v with
  | none => rfl
  | some v => exact lookup_upsert_self k v r

theorem lookup_optUpsert_ne (k k2 : String) (v : Option Val) (r : Record)
    (h : k ≠ k2) : lookupKV k2 (optUpsert k v r) = lookupKV k2 r := by
  cases v with
  | none => rfl
  | some v => exact lookup_upsert_ne k k2 v h r

theorem emitSection_lookup_ne (pl : List (String × String))
    (name c2 : String) (r : Record) (k : String) (hne : name ≠ k) :
    lookupKV k (emitSection pl name c2 r) = lookupKV k r := by
  unfold emitSection
  split
  · exact lookup_upsert_ne name k _ hne r
  · split
    · exact lookup_upsert_ne name k _ hne r
    · rfl

theorem finishSection_lookup_ne (pl : List (String × String))
    (name content : String) (r : Record) (k : String) (hne : name ≠ k) :
    lookupKV k (finishSection pl name content r) = lookupKV k r :=
  emitSection_lookup_ne pl name _ r k hne

theorem findHeaderB_name (sec : String) :
    ∀ (hs : List Ctx) (hc : Ctx) (name : String),
      findHeaderB sec hs = some (hc, name) →
      (sec = wnf ∧ pyStartsWith wnf name = true) ∨
        (sec ≠ wnf ∧ name = sec) := by
  intro hs
  induction hs with
  | nil => intro hc name h; cases h
  | cons h0 rest ih =>
    intro hc name h
    rw [findHeaderB] at h
    by_cases hsw : sec = wnf
    · rw [if_pos hsw] at h
      by_cases hpre : pyStartsWith sec (cleanText (nodeText h0.node)) = true
      · rw [if_pos hpre] at h
        injection h with h2
        have hn : cleanText (nodeText h0.node) = name := congrArg Prod.snd h2
        left
        refine ⟨hsw, ?_⟩
        rw [← hn, ← hsw]
        exact hpre
      · rw [if_neg hpre] at h
        exact ih hc name h
    · rw [if_neg hsw] at h
      by_cases heq : cleanText (nodeText h0.node) = sec
      · rw [if_pos heq] at h
        injection h with h2
        right
        exact ⟨hsw, (congrArg Prod.snd h2).symm⟩
      · rw [if_neg heq] at h
        exact ih hc name h

theorem sectionKeyish_of_mem (sec : String) (hsec : sec ∈ sections) :
    isSectionKeyish sec = true := by
  unfold isSectionKeyish
  rw [decide_eq_true hsec]
  rfl

theorem sectionKeyish_of_wnf (k : String)
    (h : pyStartsWith wnf k = true) : isSectionKeyish k = true := by
  unfold isSectionKeyish
  rw [h, Bool.or_true]

theorem stepBSection_lookup_ne (pl : List (String × String))
    (headers : List Ctx) (r : Record) (sec k : String)
    (hsec : sec ∈ sections) (hk : isSectionKeyish k = false) :
    lookupKV k (stepBSection pl headers r sec) = lookupKV k r := by
  unfold stepBSection
  cases hfind : findHeaderB sec headers with
  | none => rfl
  | some pair =>
    obtain ⟨hc, name⟩ := pair
    have hname := findHeaderB_name sec headers hc name hfind
    have hkeyish : isSectionKeyish name = true := by
      rcases hname with ⟨_, hpre⟩ | ⟨_, heq⟩
      · exact sectionKeyish_of_wnf name hpre
      · rw [heq]; exact sectionKeyish_of_mem sec hsec
    have hne : name ≠ k := by
      intro he
      rw [he, hk] at hkeyish
      cases hkeyish
    exact finishSection_lookup_ne pl name _ r k hne

theorem stepB_lookup_ne (root : Node) (pl : List (String × String))
    (r : Record) (k : String) (hk : isSectionKeyish k = false) :
    lookupKV k (stepB root pl r) = lookupKV k r := by
  unfold stepB
  cases appDetails root with
  | none => rfl
  | some ad =>
    have haux : ∀ (ss : List String), (∀ s ∈ ss, s ∈ sections) →
        ∀ r2 : Record,
        lookupKV k (ss.foldl (stepBSection pl (headersB ad)) r2) =
          lookupKV k r2 := by
      intro ss
      induction ss with
      | nil => intro _ r2; rfl
      | cons s ss2 ih =>
        intro hss r2
        rw [List.foldl_cons, ih (fun x hx => hss x (by simp [hx]))]
        exact stepBSection_lookup_ne pl (headersB ad) r2 s k
          (hss s (by simp)) hk
    exact haux sections (fun s hs => hs) r

theorem matchesC_parts (sec : String) (n : Node)
    (hm : matchesC sec n = true) :
    isHeading234 n = true ∧ ∃ s, nodeString n = some s ∧ s ≠ "" ∧
      ((sec = wnf ∧ pyStartsWith sec (pyStrip s) = true) ∨
        (sec ≠ wnf ∧ pyStrip s = sec)) := by
  unfold matchesC at hm
  rw [Bool.and_eq_true] at hm
  obtain ⟨hh, hrest⟩ := hm
  refine ⟨hh, ?_⟩
  cases hns : nodeString n with
  | none => rw [hns] at hrest; cases hrest
  | some s =>
    rw [hns] at hrest
    have hrest2 : (if s = "" then false
        else if sec = wnf then pyStartsWith sec (pyStrip s)
        else pyStrip s == sec) = true := hrest
    refine ⟨s, rfl, ?_, ?_⟩
    · intro he
      rw [if_pos he] at hrest2
      cases hrest2
    · by_cases hse : s = ""
      · rw [if_pos hse] at hrest2; cases hrest2
      · rw [if_neg hse] at hrest2
        by_cases hsw : sec = wnf
        · rw [if_pos hsw] at hrest2
          exact Or.inl ⟨hsw, hrest2⟩
        · rw [if_neg hsw] at hrest2
          exact Or.inr ⟨hsw, by simpa using hrest2⟩

theorem matchesC_name_keyish (sec : String) (hsec : sec ∈ sections)
    (n : Node) (hm : matchesC sec n = true) :
    isSectionKeyish (cleanText (nodeText n)) = true := by
  obtain ⟨_, s, hns, _, hcases⟩ := matchesC_parts sec n hm
  rw [nodeString_text n s hns]
  rcases hcases with ⟨hsw, hpre⟩ | ⟨_, heq⟩
  · rw [hsw] at hpre
    exact sectionKeyish_of_wnf _ (wnf_prefix_cleanText s hpre)
  · have : cleanText s = sec := by
      rw [← cleanText_pyStrip s, heq]
      exact sections_cleanText_fixed sec hsec
    rw [this]
    exact sectionKeyish_of_mem sec hsec

theorem stepCSection_lookup_ne (pl : List (String × String)) (mc : Ctx)
    (r : Record) (sec k : String) (hsec : sec ∈ sections)
    (hk : isSectionKeyish k = false) :
    lookupKV k (stepCSection pl mc r sec) = lookupKV k r := by
  unfold stepCSection
  have haux : ∀ (hs : List Ctx), (∀ h ∈ hs, matchesC sec h.node = true) →
      ∀ r2 : Record,
      lookupKV k (hs.foldl (stepCHeader pl) r2) = lookupKV k r2 := by
    intro hs
    induction hs with
    | nil => intro _ r2; rfl
    | cons h0 hs2 ih =>
      intro hhs r2
      rw [List.foldl_cons, ih (fun x hx => hhs x (by simp [hx]))]
      unfold stepCHeader
      have hkeyish := matchesC_name_keyish sec hsec h0.node (hhs h0 (by simp))
      have hne : cleanText (nodeText h0.node) ≠ k := by
        intro he
        rw [he, hk] at hkeyish
        cases hkeyish
      exact emitSection_lookup_ne pl _ _ r2 k hne
  refine haux (headersC mc sec) ?_ r
  intro h hh
  unfold headersC at hh
  exact (List.mem_filter.mp hh).2

theorem stepC_lookup_ne (root : Node) (pl : List (String × String))
    (r : Record) (k : String) (hk : isSectionKeyish k = false) :
    lookupKV k (stepC root pl r) = lookupKV k r := by
  unfold stepC
  split
  · rfl
  · cases mainContent root with
    | none => rfl
    | some mc =>
      have haux : ∀ (ss : List String), (∀ s ∈ ss, s ∈ sections) →
          ∀ r2 : Record,
          lookupKV k (ss.foldl (stepCSection pl mc) r2) = lookupKV k r2 := by
        intro ss
        induction ss with
        | nil => intro _ r2; rfl
        | cons s ss2 ih =>
          intro hss r2
          rw [List.foldl_cons, ih (fun x hx => hss x (by simp [hx]))]
          exact stepCSection_lookup_ne pl mc r2 s k (hss s (by simp)) hk
      exact haux sections (fun s hs => hs) r

theorem ensureKey_lookup_ne (k2 : String) (r : Record) (k : String)
    (h : k ≠ k2) : lookupKV k (ensureKey k2 r) = lookupKV k r := by
  unfold ensureKey
  split
  · rfl
  · exact lookup_upsert_ne k2 k _ (fun he => h he.symm) r

theorem cleanup_lookup_ne (r : Record) (k : String)
    (h1 : k ≠ "title") (h2 : k ≠ "description") :
    lookupKV k (cleanup r) = lookupKV k r := by
  unfold cleanup
  rw [ensureKey_lookup_ne "description" _ k h2,
    ensureKey_lookup_ne "title" r k h1]

theorem ensureKey_lookup_isSome (k : String) (r : Record) :
    (lookupKV k (ensureKey k r)).isSome = true := by
  unfold ensureKey
  split
  · assumption
  · rw [lookup_upsert_self]
    rfl

theorem ensureKey_lookup_none (k : String) (r : Record)
    (h : lookupKV k r = none) :
    lookupKV k (ensureKey k r) = some (Val.str "") := by
  unfold ensureKey
  rw [h]
  simp only [Option.isSome_none, Bool.false_eq_true, if_false]
  exact lookup_upsert_self k (Val.str "") r

theorem ensureKey_lookup_some (k : String) (r : Record) (v : Val)
    (h : lookupKV k r = some v) :
    lookupKV k (ensureKey k r) = some v := by
  unfold ensureKey
  rw [h]
  simp only [Option.isSome_some, if_true]
  exact h

theorem preSections_lookup_auth (root : Node) :
    lookupKV "authenticity_token" (preSections root) =
      (authTokenValue root).map Val.str := by
  unfold preSections
  rw [lookup_optUpsert_ne "description" "authenticity_token" _ _ (by decide),
    lookup_optUpsert_ne "title" "authenticity_token" _ _ (by decide),
    lookup_optUpsert_ne "submission_judging_id" "authenticity_token" _ _
      (by decide),
    lookup_optUpsert_ne "grade_fields" "authenticity_token" _ _ (by decide),
    lookup_optUpsert_self]
  cases authTokenValue root <;> rfl

theorem preSections_lookup_grade (root : Node) :
    lookupKV "grade_fields" (preSections root) = gradeFieldsVal root := by
  unfold preSections
  rw [lookup_optUpsert_ne "description" "grade_fields" _ _ (by decide),
    lookup_optUpsert_ne "title" "grade_fields" _ _ (by decide),
    lookup_optUpsert_ne "submission_judging_id" "grade_fields" _ _
      (by decide),
    lookup_optUpsert_self]
  cases gradeFieldsVal root with
  | some v => rfl
  | none =>
    rw [lookup_optUpsert_ne "authenticity_token" "grade_fields" _ _
      (by decide)]
    rfl

theorem preSections_lookup_judging (root : Node) :
    lookupKV "submission_judging_id" (preSections root) =
      (judgingId root).map Val.str := by
  unfold preSections
  rw [lookup_optUpsert_ne "description" "submission_judging_id" _ _
      (by decide),
    lookup_optUpsert_ne "title" "submission_judging_id" _ _ (by decide),
    lookup_optUpsert_self]
  cases judgingId root with
  | some v => rfl
  | none =>
    rw [lookup_optUpsert_ne "grade_fields" "submission_judging_id" _ _
        (by decide),
      lookup_optUpsert_ne "authenticity_token" "submission_judging_id" _ _
        (by decide)]
    rfl

theorem preSections_lookup_title (root : Node) :
    lookupKV "title" (preSections root) = (titleValue root).map Val.str := by
  unfold preSections
  rw [lookup_optUpsert_ne "description" "title" _ _ (by decide),
    lookup_optUpsert_self]
  cases titleValue root with
  | some v => rfl
  | none =>
    rw [lookup_optUpsert_ne "submission_judging_id" "title" _ _ (by decide),
      lookup_optUpsert_ne "grade_fields" "title" _ _ (by decide),
      lookup_optUpsert_ne "authenticity_token" "title" _ _ (by decide)]
    rfl

theorem preSections_lookup_desc (root : Node) :
    lookupKV "description" (preSections root) =
      (descriptionValue root).map Val.str := by
  unfold preSections
  rw [lookup_optUpsert_self]
  cases descriptionValue root with
  | some v => rfl
  | none =>
    rw [lookup_optUpsert_ne "title" "description" _ _ (by decide),
      lookup_optUpsert_ne "submission_judging_id" "description" _ _
        (by decide),
      lookup_optUpsert_ne "grade_fields" "description" _ _ (by decide),
      lookup_optUpsert_ne "authenticity_token" "description" _ _ (by decide)]
    rfl

theorem parse_lookup_auth (root : Node) :
    lookupKV "authenticity_token" (parse root) =
      (authTokenValue root).map Val.str := by
  unfold parse parseUpToB
  rw [cleanup_lookup_ne _ _ (by decide) (by decide),
    stepC_lookup_ne _ _ _ _ (by decide),
    stepB_lookup_ne _ _ _ _ (by decide),
    preSections_lookup_auth]

theorem parse_lookup_grade (root : Node) :
    lookupKV "grade_fields" (parse root) = gradeFieldsVal root := by
  unfold parse parseUpToB
  rw [cleanup_lookup_ne _ _ (by decide) (by decide),
    stepC_lookup_ne _ _ _ _ (by decide),
    stepB_lookup_ne _ _ _ _ (by decide),
    preSections_lookup_grade]

theorem parse_lookup_judging (root : Node) :
    lookupKV "submission_judging_id" (parse root) =
      (judgingId root).map Val.str := by
  unfold parse parseUpToB
  rw [cleanup_lookup_ne _ _ (by decide) (by decide),
    stepC_lookup_ne _ _ _ _ (by decide),
    stepB_lookup_ne _ _ _ _ (by decide),
    preSections_lookup_judging]

theorem parse_lookup_title (root : Node) :
    lookupKV "title" (parse root) =
      some (((titleValue root).map Val.str).getD (Val.str "")) := by
  unfold parse parseUpToB cleanup
  rw [ensureKey_lookup_ne "description" _ "title" (by decide)]
  have hx : lookupKV "title"
      (stepC root (datePlaceholders root)
        (stepB root (datePlaceholders root) (preSections root))) =
      (titleValue root).map Val.str := by
    rw [stepC_lookup_ne _ _ _ _ (by decide),
      stepB_lookup_ne _ _ _ _ (by decide),
      preSections_lookup_title]
  cases htv : titleValue root with
  | some v =>
    rw [htv] at hx
    rw [ensureKey_lookup_some "title" _ _ hx]
    rfl
  | none =>
    rw [htv] at hx
    rw [ensureKey_lookup_none "title" _ hx]
    rfl

theorem parse_lookup_desc (root : Node) :
    lookupKV "description" (parse root) =
      some (((descriptionValue root).map Val.str).getD (Val.str "")) := by
  unfold parse parseUpToB cleanup
  have hx : lookupKV "description"
      (ensureKey "title"
        (stepC root (datePlaceholders root)
          (stepB root (datePlaceholders root) (preSections root)))) =
      (descriptionValue root).map Val.str := by
    rw [ensureKey_lookup_ne "title" _ "description" (by decide),
      stepC_lookup_ne _ _ _ _ (by decide),
      stepB_lookup_ne _ _ _ _ (by decide),
      preSections_lookup_desc]
  cases htv : descriptionValue root with
  | some v =>
    rw [htv] at hx
    rw [ensureKey_lookup_some "description" _ _ hx]
    rfl
  | none =>
    rw [htv] at hx
    rw [ensureKey_lookup_none "description" _ hx]
    rfl

/-! ### The grades dictionary -/

theorem lookup_gradeStep_ne (g : List (String × String)) (i : Node)
    (k : String) (hcap : (captureOf i == some k) = false) :
    lookupKV k (gradeStep g i) = lookupKV k g := by
  unfold gradeStep
  cases hci : captureOf i with
  | none => rfl
  | some gid =>
    have hne : gid ≠ k := by
      intro he
      rw [hci, he] at hcap
      simp at hcap
    exact lookup_upsert_ne gid k _ hne g

theorem gradesDict_foldl (k : String) :
    ∀ (inputs : List Node) (g : List (String × String)),
    lookupKV k (inputs.foldl gradeStep g) =
      (match (inputs.filter (fun i => captureOf i == some k)).getLast? with
       | some i => some ((attrOf i "value").getD "")
       | none => lookupKV k g) := by
  intro inputs
  induction inputs with
  | nil => intro g; rfl
  | cons i rest ih =>
    intro g
    rw [List.foldl_cons, ih, List.filter_cons]
    by_cases hcap : (captureOf i == some k) = true
    · simp only [hcap, if_true]
      cases hrest : rest.filter (fun i => captureOf i == some k) with
      | nil =>
        have hg : lookupKV k (gradeStep g i) =
            some ((attrOf i "value").getD "") := by
          unfold gradeStep
          have hci : captureOf i = some k := eq_of_beq hcap
          rw [hci]
          exact lookup_upsert_self k _ g
        rw [hg]
        rfl
      | cons j js =>
        have hlast : (i :: j :: js).getLast? = (j :: js).getLast? := by
          have he : i :: j :: js = [i] ++ (j :: js) := rfl
          rw [he, List.getLast?_append_of_ne_nil _ (by simp)]
        rw [hlast]
        have hsome : ((j :: js) : List Node).getLast?.isSome = true :=
          List.getLast?_isSome.mpr (by simp)
        obtain ⟨x, hx⟩ := Option.isSome_iff_exists.mp hsome
        rw [hx]
    · simp only [hcap, Bool.false_eq_true, if_false]
      cases hrest : rest.filter (fun i => captureOf i == some k) with
      | nil => rw [lookup_gradeStep_ne g i k (by simpa using hcap)]
      | cons j js => rfl

theorem gradesDict_lookup (k : String) (inputs : List Node) :
    lookupKV k (gradesDict inputs) =
      ((inputs.filter (fun i => captureOf i == some k)).getLast?).map
        (fun i => (attrOf i "value").getD "") := by
  unfold gradesDict
  rw [gradesDict_foldl]
  cases (inputs.filter (fun i => captureOf i == some k)).getLast? with
  | none => rfl
  | some i => rfl

theorem isSome_optionMap {α β : Type} (f : α → β) (o : Option α) :
    (o.map f).isSome = o.isSome := by
  cases o <;> rfl

theorem gradesDict_keys (k : String) (inputs : List Node) :
    (lookupKV k (gradesDict inputs)).isSome = true ↔
      ∃ i ∈ inputs, captureOf i = some k := by
  rw [gradesDict_lookup]
  rw [isSome_optionMap]
  rw [List.getLast?_isSome]
  constructor
  · intro h
    have : ∃ i ∈ inputs, (fun i => captureOf i == some k) i = true := by
      by_contra hc
      push_neg at hc
      exact h (List.filter_eq_nil_iff.mpr (by
        intro a ha
        simp only [Bool.not_eq_true]
        have := hc a ha
        simpa using this))
    obtain ⟨i, hi, hp⟩ := this
    exact ⟨i, hi, eq_of_beq hp⟩
  · rintro ⟨i, hi, hp⟩
    intro hnil
    have := List.filter_eq_nil_iff.mp hnil i hi
    rw [hp] at this
    simp at this

/-! ### Claims C6, C7 and C8 -/

/-- C6: the `grade_fields` key is present in the output record exactly
when the document holds at least one input whose name attribute
matches `grades[<digits>]`; the dict keys are exactly the captured
digit strings (last such input winning), and an input without a value
attribute contributes the empty string. -/
theorem C6_grade_fields (root : Node) :
    (lookupKV "grade_fields" (parse root) = none ↔ gradeInputs root = []) ∧
    (gradeInputs root ≠ [] →
      lookupKV "grade_fields" (parse root) =
        some (Val.dict (gradesDict (gradeInputs root)))) ∧
    (∀ k, lookupKV k (gradesDict (gradeInputs root)) =
      (((gradeInputs root).filter
        (fun i => captureOf i == some k)).getLast?).map
        (fun i => (attrOf i "value").getD "")) ∧
    (∀ k, (lookupKV k (gradesDict (gradeInputs root))).isSome = true ↔
      ∃ i ∈ gradeInputs root, captureOf i = some k) := by
  refine ⟨?_, ?_, fun k => gradesDict_lookup k _, fun k => gradesDict_keys k _⟩
  · rw [parse_lookup_grade]
    unfold gradeFieldsVal
    cases hgi : gradeInputs root with
    | nil => simp
    | cons a l => simp
  · rw [parse_lookup_grade]
    unfold gradeFieldsVal
    cases hgi : gradeInputs root with
    | nil => intro h; exact absurd rfl h
    | cons a l => intro _; rfl

/-- Witness for C6: a document with two grade inputs, one without a
value attribute (contributing `""`), yields the expected dict. -/
theorem C6_grade_fields_witness :
    gradeInputs docGrades ≠ [] ∧
    lookupKV "grade_fields" (parse docGrades) =
      some (Val.dict [("42", ""), ("7", "3")]) := by
  constructor
  · decide
  · have h := (C6_grade_fields docGrades).2.1 (by decide)
    rw [h]
    decide

/-- C7 (amended): the `authenticity_token` key is present exactly when
the FIRST input named `authenticity_token` exists and carries a value
attribute; its value is that attribute.  An input without a value
attribute leaves the key absent even though the element exists. -/
theorem C7_auth_token (root : Node) :
    lookupKV "authenticity_token" (parse root) =
      (authTokenValue root).map Val.str ∧
    ((lookupKV "authenticity_token" (parse root)).isSome = true ↔
      ∃ c, (allCtx root).find? (fun c => isAuthInput c.node) = some c ∧
        (attrOf c.node "value").isSome = true) ∧
    (∀ v, lookupKV "authenticity_token" (parse root) = some (Val.str v) →
      ∃ c, (allCtx root).find? (fun c => isAuthInput c.node) = some c ∧
        attrOf c.node "value" = some v) := by
  refine ⟨parse_lookup_auth root, ?_, ?_⟩
  · rw [parse_lookup_auth, isSome_optionMap]
    unfold authTokenValue
    cases hf : (allCtx root).find? (fun c => isAuthInput c.node) with
    | none => simp
    | some c => simp
  · intro v hv
    rw [parse_lookup_auth] at hv
    unfold authTokenValue at hv
    cases hf : (allCtx root).find? (fun c => isAuthInput c.node) with
    | none => rw [hf] at hv; cases hv
    | some c =>
      rw [hf] at hv
      have hv2 : (attrOf c.node "value").map Val.str = some (Val.str v) := hv
      cases ha : attrOf c.node "value" with
      | none => rw [ha] at hv2; cases hv2
      | some w =>
        rw [ha] at hv2
        injection hv2 with hv3
        injection hv3 with hv4
        exact ⟨c, rfl, by rw [ha, hv4]⟩

/-- Witness for C7 at a document whose token input carries a value. -/
theorem C7_auth_token_witness :
    ∃ c, (allCtx docAuthVal).find? (fun c => isAuthInput c.node) = some c ∧
      attrOf c.node "value" = some "tok" :=
  (C7_auth_token docAuthVal).2.2 "tok" (by decide)

/-- Counterexample to C7 as stated: an `authenticity_token` input
exists, yet the key is absent because the input has no value
attribute. -/
theorem C7_auth_token_counterexample :
    (∃ c ∈ allCtx docAuthNoValue, isAuthInput c.node = true) ∧
    lookupKV "authenticity_token" (parse docAuthNoValue) = none := by
  constructor
  · decide
  · decide

/-- C8 (amended): `title` and `description` are always present,
defaulting to `""` when every strategy fails; the metadata keys are
present exactly when a value was found.  For section names, however,
presence is governed by the shared emission step, fully characterized
in the final conjunct: a key is written whenever the RAW accumulated
content is non-empty, or else a placeholder exists.  The raw content
can be pure whitespace (a matched heading followed by an empty
paragraph contributes only the separator space), in which case the key
is still emitted, with the cleaned value `""` — so presence of a
section key does not imply a non-empty value was found. -/
theorem C8_presence (root : Node) :
    (lookupKV "title" (parse root)).isSome = true ∧
    (lookupKV "description" (parse root)).isSome = true ∧
    (titleValue root = none →
      lookupKV "title" (parse root) = some (Val.str "")) ∧
    (descriptionValue root = none →
      lookupKV "description" (parse root) = some (Val.str "")) ∧
    ((lookupKV "authenticity_token" (parse root)).isSome = true ↔
      (authTokenValue root).isSome = true) ∧
    ((lookupKV "grade_fields" (parse root)).isSome = true ↔
      gradeInputs root ≠ []) ∧
    ((lookupKV "submission_judging_id" (parse root)).isSome = true ↔
      (judgingId root).isSome = true) ∧
    (∀ (pl : List (String × String)) (name content : String)
        (r : Record),
      lookupKV name (emitSection pl name content r) =
        if content ≠ "" then some (Val.str (cleanText content))
        else
          match lookupKV name pl with
          | some v => some (Val.str v)
          | none => lookupKV name r) := by
  refine ⟨?_, ?_, ?_, ?_, ?_, ?_, ?_, ?_⟩
  · rw [parse_lookup_title]; rfl
  · rw [parse_lookup_desc]; rfl
  · intro h; rw [parse_lookup_title, h]; rfl
  · intro h; rw [parse_lookup_desc, h]; rfl
  · rw [parse_lookup_auth, isSome_optionMap]
  · rw [parse_lookup_grade]
    unfold gradeFieldsVal
    cases gradeInputs root with
    | nil => simp
    | cons a l => simp
  · rw [parse_lookup_judging, isSome_optionMap]
  · intro pl name content r
    unfold emitSection
    by_cases h : content = ""
    · subst h
      rw [if_neg (by decide), if_neg (by decide)]
      cases hp : lookupKV name pl with
      | some v => exact lookup_upsert_self name (Val.str v) r
      | none => exact rfl
    · rw [if_pos h, if_pos h]
      exact lookup_upsert_self name (Val.str (cleanText content)) r

/-- Witness for C8 at the empty document: both defaults fire. -/
theorem C8_presence_witness :
    lookupKV "title" (parse docEmpty) = some (Val.str "") ∧
    lookupKV "description" (parse docEmpty) = some (Val.str "") :=
  ⟨(C8_presence docEmpty).2.2.1 (by decide),
   (C8_presence docEmpty).2.2.2.1 (by decide)⟩

/-- Counterexample to C8 as stated: a matched heading followed by one
empty paragraph makes the raw walked content the one-space string,
which counts as non-empty, so the section key is present with the
cleaned value `""` even though no actual text was found. -/
theorem C8_counterexample :
    walkC 5 [pp ""] "" = " " ∧
    lookupKV "Inspiration" (parse docEmptySec) = some (Val.str "") := by
  constructor
  · decide
  · decide

/-! ### The normalization invariant of record values -/

theorem lookup_upsert_cases {α : Type} (k1 k : String) (v w : α) :
    ∀ l : List (String × α), lookupKV k (upsertKV k1 v l) = some w →
      (k = k1 ∧ w = v) ∨ lookupKV k l = some w := by
  intro l
  induction l with
  | nil =>
    intro h
    unfold upsertKV lookupKV at h
    by_cases hk : k1 = k
    · rw [if_pos hk] at h
      injection h with h2
      exact Or.inl ⟨hk.symm, h2.symm⟩
    · rw [if_neg hk] at h
      cases h
  | cons p rest ih =>
    obtain ⟨k2, v2⟩ := p
    intro h
    unfold upsertKV at h
    by_cases h21 : k2 = k1
    · rw [if_pos h21] at h
      unfold lookupKV at h
      by_cases h1k : k1 = k
      · rw [if_pos h1k] at h
        injection h with h2
        exact Or.inl ⟨h1k.symm, h2.symm⟩
      · rw [if_neg h1k] at h
        right
        unfold lookupKV
        rw [if_neg (h21 ▸ h1k)]
        exact h
    · rw [if_neg h21] at h
      unfold lookupKV at h
      by_cases h2k : k2 = k
      · rw [if_pos h2k] at h
        right
        unfold lookupKV
        rw [if_pos h2k]
        exact h
      · rw [if_neg h2k] at h
        rcases ih h with h3 | h3
        · exact Or.inl h3
        · right
          unfold lookupKV
          rw [if_neg h2k]
          exact h3

theorem plClean_nil : PlClean [] := by
  intro k v h
  cases h

theorem plClean_recordPlaceholder (ht dt : String)
    (pl : List (String × String)) (hp : PlClean pl) :
    PlClean (recordPlaceholder ht dt pl) := by
  unfold recordPlaceholder
  have haux : ∀ (ss : List String) (pl2 : List (String × String)),
      PlClean pl2 →
      PlClean (ss.foldl
        (fun pl sec =>
          if containsSub sec ht then
            upsertKV (if sec = wnf then ht else sec) (cleanText dt) pl
          else pl) pl2) := by
    intro ss
    induction ss with
    | nil => intro pl2 h; exact h
    | cons s ss2 ih =>
      intro pl2 h
      rw [List.foldl_cons]
      apply ih
      by_cases hc : containsSub s ht = true
      · rw [if_pos hc]
        intro k v hkv
        rcases lookup_upsert_cases _ k _ v _ hkv with ⟨_, hw⟩ | hold
        · exact ⟨dt, hw⟩
        · exact h k v hold
      · rw [if_neg hc]
        exact h
  exact haux sections pl hp

theorem datePlaceholders_clean (root : Node) :
    PlClean (datePlaceholders root) := by
  unfold datePlaceholders
  have haux : ∀ (cs : List Ctx) (pl : List (String × String)),
      PlClean pl →
      PlClean (cs.foldl
        (fun pl c =>
          match c.node with
          | .text s =>
            if containsSub "Date entered:" s then
              match prevHeader c.parents with
              | some h => recordPlaceholder (cleanText (nodeText h)) s pl
              | none => pl
            else pl
          | .elem _ _ _ _ => pl) pl) := by
    intro cs
    induction cs with
    | nil => intro pl h; exact h
    | cons c cs2 ih =>
      intro pl h
      rw [List.foldl_cons]
      apply ih
      cases hn : c.node with
      | elem t a cls ch => exact h
      | text s =>
        show PlClean (if containsSub "Date entered:" s = true then
            (match prevHeader c.parents with
             | some h => recordPlaceholder (cleanText (nodeText h)) s pl
             | none => pl)
          else pl)
        by_cases hc : containsSub "Date entered:" s = true
        · rw [if_pos hc]
          cases prevHeader c.parents with
          | none => exact h
          | some hd => exact plClean_recordPlaceholder _ s pl h
        · rw [if_neg hc]
          exact h
  exact haux (allCtx root) [] plClean_nil

theorem optionMap_clean (o : Option String) (v : String)
    (h : o.map cleanText = some v) : ∃ x, v = cleanText x := by
  cases o with
  | none => cases h
  | some w =>
    injection h with h2
    exact ⟨w, h2.symm⟩

theorem titleValue_clean (root : Node) :
    ∀ v, titleValue root = some v → ∃ x, v = cleanText x := by
  intro v h
  unfold titleValue at h
  cases h1 : titleH1 root with
  | some c =>
    rw [h1] at h
    injection h with h2
    exact ⟨nodeText c.node, h2.symm⟩
  | none =>
    rw [h1] at h
    have ha : (match metaFind root "property" "og:title" with
      | some m => (attrOf m "content").map cleanText
      | none =>
        match metaFind root "name" "twitter:title" with
        | some m => (attrOf m "content").map cleanText
        | none => none) = some v := h
    cases h2 : metaFind root "property" "og:title" with
    | some m =>
      rw [h2] at ha
      exact optionMap_clean _ v ha
    | none =>
      rw [h2] at ha
      have hb : (match metaFind root "name" "twitter:title" with
        | some m => (attrOf m "content").map cleanText
        | none => none) = some v := ha
      cases h3 : metaFind root "name" "twitter:title" with
      | some m =>
        rw [h3] at hb
        exact optionMap_clean _ v hb
      | none =>
        rw [h3] at hb
        cases hb

theorem descMeta_clean (root : Node) :
    ∀ v, descMeta root = some v → ∃ x, v = cleanText x := by
  intro v h
  unfold descMeta at h
  cases h2 : metaFind root "property" "og:description" with
  | some m =>
    rw [h2] at h
    exact optionMap_clean _ v h
  | none =>
    rw [h2] at h
    have ha : (match metaFind root "name" "description" with
      | some m => (attrOf m "content").map cleanText
      | none =>
        match metaFind root "name" "twitter:description" with
        | some m => (attrOf m "content").map cleanText
        | none => none) = some v := h
    cases h3 : metaFind root "name" "description" with
    | some m =>
      rw [h3] at ha
      exact optionMap_clean _ v ha
    | none =>
      rw [h3] at ha
      have hb : (match metaFind root "name" "twitter:description" with
        | some m => (attrOf m "content").map cleanText
        | none => none) = some v := ha
      cases h4 : metaFind root "name" "twitter:description" with
      | some m =>
        rw [h4] at hb
        exact optionMap_clean _ v hb
      | none =>
        rw [h4] at hb
        cases hb

theorem descriptionValue_clean (root : Node) :
    ∀ v, descriptionValue root = some v → ∃ x, v = cleanText x := by
  intro v h
  unfold descriptionValue at h
  cases h1 : titleH1 root with
  | none =>
    rw [h1] at h
    exact descMeta_clean root v h
  | some c =>
    rw [h1] at h
    have ha : ∃ o : Option Ctx,
        (match o with
         | some ic => some (cleanText (nodeText ic.node))
         | none => descMeta root) = some v := ⟨_, h⟩
    obtain ⟨o, ho⟩ := ha
    cases o with
    | some ic =>
      injection ho with h2
      exact ⟨nodeText ic.node, h2.symm⟩
    | none => exact descMeta_clean root v ho

theorem lookup_optUpsert_cases (k1 k : String) (v : Option Val) (w : Val)
    (r : Record) (h : lookupKV k (optUpsert k1 v r) = some w) :
    (k = k1 ∧ v = some w) ∨ lookupKV k r = some w := by
  cases v with
  | none => exact Or.inr h
  | some v2 =>
    rcases lookup_upsert_cases k1 k v2 w r h with ⟨hk, hw⟩ | hold
    · exact Or.inl ⟨hk, by rw [hw]⟩
    · exact Or.inr hold

theorem strMap_eq_some (o : Option String) (s : String)
    (h : o.map Val.str = some (Val.str s)) : o = some s := by
  cases o with
  | none => cases h
  | some w =>
    injection h with h2
    injection h2 with h3
    rw [h3]

theorem preSections_recClean (root : Node) : RecClean (preSections root) := by
  intro k s hlk hkey
  unfold preSections at hlk
  rcases lookup_optUpsert_cases _ k _ _ _ hlk with ⟨hk, hv⟩ | hlk2
  · subst hk
    exact descriptionValue_clean root s (strMap_eq_some _ s hv)
  rcases lookup_optUpsert_cases _ k _ _ _ hlk2 with ⟨hk, hv⟩ | hlk3
  · subst hk
    exact titleValue_clean root s (strMap_eq_some _ s hv)
  rcases lookup_optUpsert_cases _ k _ _ _ hlk3 with ⟨hk, _⟩ | hlk4
  · subst hk
    rcases hkey with h | h | h
    · exact absurd h (by decide)
    · exact absurd h (by decide)
    · exact absurd h (by decide)
  rcases lookup_optUpsert_cases _ k _ _ _ hlk4 with ⟨hk, _⟩ | hlk5
  · subst hk
    rcases hkey with h | h | h
    · exact absurd h (by decide)
    · exact absurd h (by decide)
    · exact absurd h (by decide)
  rcases lookup_optUpsert_cases _ k _ _ _ hlk5 with ⟨hk, _⟩ | hlk6
  · subst hk
    rcases hkey with h | h | h
    · exact absurd h (by decide)
    · exact absurd h (by decide)
    · exact absurd h (by decide)
  cases hlk6

theorem emitSection_recClean (pl : List (String × String))
    (name c2 : String) (r : Record) (hpl : PlClean pl)
    (hr : RecClean r) : RecClean (emitSection pl name c2 r) := by
  intro k s hlk hkey
  unfold emitSection at hlk
  split at hlk
  · rcases lookup_upsert_cases name k _ _ r hlk with ⟨_, hw⟩ | hold
    · injection hw with hw2
      obtain ⟨x, hx⟩ : ∃ x, cleanText c2 = cleanText x := ⟨c2, rfl⟩
      exact ⟨x, by rw [hw2, hx]⟩
    · exact hr k s hold hkey
  · cases hp : lookupKV name pl with
    | some v =>
      rw [hp] at hlk
      have hlk2 : lookupKV k (upsertKV name (Val.str v) r) =
          some (Val.str s) := hlk
      rcases lookup_upsert_cases name k _ _ r hlk2 with ⟨_, hw⟩ | hold
      · injection hw with hw2
        obtain ⟨x, hx⟩ := hpl name v hp
        exact ⟨x, by rw [hw2, hx]⟩
      · exact hr k s hold hkey
    | none =>
      rw [hp] at hlk
      exact hr k s hlk hkey

theorem finishSection_recClean (pl : List (String × String))
    (name content : String) (r : Record) (hpl : PlClean pl)
    (hr : RecClean r) : RecClean (finishSection pl name content r) :=
  emitSection_recClean pl name _ r hpl hr

theorem stepB_recClean (root : Node) (pl : List (String × String))
    (r : Record) (hpl : PlClean pl) (hr : RecClean r) :
    RecClean (stepB root pl r) := by
  unfold stepB
  cases appDetails root with
  | none => exact hr
  | some ad =>
    have haux : ∀ (ss : List String) (r2 : Record), RecClean r2 →
        RecClean (ss.foldl (stepBSection pl (headersB ad)) r2) := by
      intro ss
      induction ss with
      | nil => intro r2 h; exact h
      | cons sec ss2 ih =>
        intro r2 h
        rw [List.foldl_cons]
        apply ih
        unfold stepBSection
        cases findHeaderB sec (headersB ad) with
        | none => exact h
        | some pair => exact finishSection_recClean pl pair.2 _ r2 hpl h
    exact haux sections r hr

theorem stepC_recClean (root : Node) (pl : List (String × String))
    (r : Record) (hpl : PlClean pl) (hr : RecClean r) :
    RecClean (stepC root pl r) := by
  unfold stepC
  split
  · exact hr
  · cases mainContent root with
    | none => exact hr
    | some mc =>
      have haux : ∀ (ss : List String) (r2 : Record), RecClean r2 →
          RecClean (ss.foldl (stepCSection pl mc) r2) := by
        intro ss
        induction ss with
        | nil => intro r2 h; exact h
        | cons sec ss2 ih =>
          intro r2 h
          rw [List.foldl_cons]
          apply ih
          unfold stepCSection
          have haux2 : ∀ (hs : List Ctx) (r3 : Record), RecClean r3 →
              RecClean (hs.foldl (stepCHeader pl) r3) := by
            intro hs
            induction hs with
            | nil => intro r3 h3; exact h3
            | cons h0 hs2 ih2 =>
              intro r3 h3
              rw [List.foldl_cons]
              apply ih2
              exact emitSection_recClean pl _ _ r3 hpl h3
          exact haux2 (headersC mc sec) r2 h
      exact haux sections r hr

theorem ensureKey_recClean (k2 : String) (r : Record) (hr : RecClean r) :
    RecClean (ensureKey k2 r) := by
  intro k s hlk hkey
  unfold ensureKey at hlk
  split at hlk
  · exact hr k s hlk hkey
  · rcases lookup_upsert_cases k2 k _ _ r hlk with ⟨_, hw⟩ | hold
    · injection hw with hw2
      exact ⟨"", by rw [hw2]; rfl⟩
    · exact hr k s hold hkey

theorem parse_recClean (root : Node) : RecClean (parse root) := by
  unfold parse parseUpToB cleanup
  apply ensureKey_recClean
  apply ensureKey_recClean
  apply stepC_recClean _ _ _ (datePlaceholders_clean root)
  apply stepB_recClean _ _ _ (datePlaceholders_clean root)
  exact preSections_recClean root

/-- C10: every string the output record stores under `title`,
`description` or a resolved section name is a fixed point of the text
normalizer; nothing is claimed for the verbatim metadata values. -/
theorem C10_values_normalized (root : Node) (k s : String)
    (hlk : lookupKV k (parse root) = some (Val.str s))
    (hk : k = "title" ∨ k = "description" ∨ isSectionKeyish k = true) :
    cleanText s = s := by
  obtain ⟨x, hx⟩ := parse_recClean root k s hlk hk
  rw [hx]
  exact cleanText_idem x

/-- Witness for C10 at the empty document and the defaulted title. -/
theorem C10_values_normalized_witness : cleanText "" = "" :=
  C10_values_normalized docEmpty "title" "" (by decide) (Or.inl rfl)

/-! ### Claim C4: placeholder harvesting matches by substring -/

/-- C4 (amended): Step A records a placeholder whenever a canonical
name occurs anywhere as a substring of the normalized heading text;
equality or a prefix match is not required.  The key is the literal
canonical name, or the full heading text for the prefix-matched name,
and the stored value is the cleaned marker text. -/
theorem C4_placeholder_substring (ht dt : String)
    (pl : List (String × String)) (sec : String)
    (hsec : sec ∈ sections) (hcont : containsSub sec ht = true) :
    lookupKV (if sec = wnf then ht else sec)
      (recordPlaceholder ht dt pl) = some (cleanText dt) := by
  unfold recordPlaceholder
  have hpres : ∀ (ss : List String) (pl2 : List (String × String)),
      lookupKV (if sec = wnf then ht else sec) pl2 = some (cleanText dt) →
      lookupKV (if sec = wnf then ht else sec)
        (ss.foldl
          (fun pl s2 =>
            if containsSub s2 ht then
              upsertKV (if s2 = wnf then ht else s2) (cleanText dt) pl
            else pl) pl2) = some (cleanText dt) := by
    intro ss
    induction ss with
    | nil => intro pl2 h; exact h
    | cons s2 ss2 ih =>
      intro pl2 h
      rw [List.foldl_cons]
      apply ih
      by_cases hc : containsSub s2 ht = true
      · rw [if_pos hc]
        by_cases hk : (if s2 = wnf then ht else s2) =
            (if sec = wnf then ht else sec)
        · rw [hk]
          exact lookup_upsert_self _ _ pl2
        · rw [lookup_upsert_ne _ _ _ hk pl2]
          exact h
      · rw [if_neg hc]
        exact h
  have hmem : ∀ (ss : List String) (pl2 : List (String × String)),
      sec ∈ ss →
      lookupKV (if sec = wnf then ht else sec)
        (ss.foldl
          (fun pl s2 =>
            if containsSub s2 ht then
              upsertKV (if s2 = wnf then ht else s2) (cleanText dt) pl
            else pl) pl2) = some (cleanText dt) := by
    intro ss
    induction ss with
    | nil => intro pl2 h; cases h
    | cons s2 ss2 ih =>
      intro pl2 hm
      rw [List.foldl_cons]
      rcases List.mem_cons.mp hm with he | hm2
      · subst he
        apply hpres
        rw [if_pos hcont]
        exact lookup_upsert_self _ _ pl2
      · exact ih _ hm2
  exact hmem sections pl hsec

/-- Witness for C4 at a heading that merely contains the canonical
name. -/
theorem C4_placeholder_substring_witness :
    lookupKV
      (if "Inspiration" = wnf then "My Inspiration Story" else "Inspiration")
      (recordPlaceholder "My Inspiration Story" "Date entered: 2024-01-01"
        []) = some (cleanText "Date entered: 2024-01-01") :=
  C4_placeholder_substring "My Inspiration Story" "Date entered: 2024-01-01"
    [] "Inspiration" (by decide) (by decide)

/-- Counterexample to C4 as stated: the heading "My Inspiration Story"
neither equals nor starts with the canonical name, yet a placeholder is
recorded for "Inspiration" and even surfaces in the parse output. -/
theorem C4_counterexample :
    datePlaceholders docInnerSubstring =
      [("Inspiration", "Date entered: 2024-01-01")] ∧
    ("My Inspiration Story" ≠ "Inspiration") ∧
    pyStartsWith "Inspiration" "My Inspiration Story" = false ∧
    containsSub "Inspiration" "My Inspiration Story" = true ∧
    lookupKV "Inspiration" (parse docInnerSubstring) =
      some (Val.str "Date entered: 2024-01-01") := by
  refine ⟨by decide, by decide, by decide, by decide, by decide⟩

/-! ### Claim C5: the Step C sibling walk -/

/-- C5 (amended): the Step C walk examines at most 5 following sibling
nodes and stops early only at headings of level 2 to 4; a level-1
heading does NOT terminate the scan, and its non-empty text is
accumulated into the content like any text-bearing node. -/
theorem C5_stepC_walk :
    (∀ (n : Nat) (sibs : List Node) (content : String),
      walkC n sibs content = walkC n (sibs.take n) content) ∧
    (∀ (n : Nat) (h : Node) (rest : List Node) (content : String),
      isHeading234 h = true → walkC (n + 1) (h :: rest) content = content) ∧
    (∀ (n : Nat) (h : Node) (rest : List Node) (content : String),
      nameOf h = some "h1" → pyStrip (nodeText h) ≠ "" →
      walkC (n + 1) (h :: rest) content =
        walkC n rest (content ++ " " ++ pyStrip (nodeText h))) := by
  refine ⟨?_, ?_, ?_⟩
  · intro n
    induction n with
    | zero => intro sibs content; rfl
    | succ k ih =>
      intro sibs content
      cases sibs with
      | nil => rfl
      | cons x rest =>
        simp only [List.take_succ_cons, walkC]
        split
        · rfl
        · split
          · exact ih rest _
          · exact ih rest _
  · intro n h rest content hh2
    simp only [walkC, hh2, if_true]
  · intro n h rest content hname htext
    have hstop : isHeading234 h = false := by
      simp only [isHeading234, isTag, hname]
      decide
    have hnp : isTag h "p" = false := by
      simp only [isTag, hname]
      decide
    simp only [walkC, hstop, Bool.false_eq_true, if_false, hnp,
      Bool.false_or]
    rw [if_pos (by simpa using htext)]

/-- Witness for C5: a level 2 heading stops the walk immediately. -/
theorem C5_stepC_walk_witness : walkC 1 [hh "x"] "c" = "c" :=
  C5_stepC_walk.2.1 0 (hh "x") [] "c" (by decide)

/-- Counterexample to C5 as stated: the level-1 heading between the
matched heading and the paragraph does not stop the Step C scan, and
its text "X" ends up in the extracted section content. -/
theorem C5_counterexample :
    lookupKV "Inspiration" (parse docH1Break) = some (Val.str "X y") := by
  decide

/-! ### Claim C2: duplicate headings -/

theorem stepCHeader_yield_none (pl : List (String × String))
    (h0 : Ctx) (name : String)
    (_hname : cleanText (nodeText h0.node) = name)
    (hy : headerYield pl h0 = none) (r : Record) :
    lookupKV name (stepCHeader pl r h0) = lookupKV name r := by
  unfold headerYield at hy
  unfold stepCHeader emitSection
  by_cases hw : walkC 5 h0.nextSibs "" = ""
  · rw [if_neg (by simpa using hw)]
    rw [if_neg (by simpa using hw)] at hy
    cases hp : lookupKV (cleanText (nodeText h0.node)) pl with
    | some v =>
      rw [hp] at hy
      exact absurd hy (by simp)
    | none => rfl
  · rw [if_pos hw] at hy
    cases hy

theorem stepCHeader_yield_some (pl : List (String × String))
    (h0 : Ctx) (name : String) (y : Val)
    (hname : cleanText (nodeText h0.node) = name)
    (hy : headerYield pl h0 = some y) (r : Record) :
    lookupKV name (stepCHeader pl r h0) = some y := by
  unfold headerYield at hy
  unfold stepCHeader emitSection
  by_cases hw : walkC 5 h0.nextSibs "" = ""
  · rw [if_neg (by simpa using hw)]
    rw [if_neg (by simpa using hw)] at hy
    cases hp : lookupKV (cleanText (nodeText h0.node)) pl with
    | some v =>
      rw [hp] at hy
      have hy2 : Val.str v = y := by
        have : some (Val.str v) = some y := hy
        injection this
      show lookupKV name
        (upsertKV (cleanText (nodeText h0.node)) (Val.str v) r) = some y
      rw [← hy2, hname]
      exact lookup_upsert_self name _ r
    | none =>
      rw [hp] at hy
      cases hy
  · rw [if_pos hw]
    rw [if_pos hw] at hy
    injection hy with hy2
    rw [← hy2, hname]
    exact lookup_upsert_self name _ r

/-- C2 (amended): in Step B the first qualifying heading per canonical
name wins (the scan returns the first match, skipping only headings
that fail the match).  In Step C, however, EVERY matching heading is
processed in document order, and the final value for the name is the
contribution of the LAST heading that yields one (non-empty walked
content, or a placeholder); later duplicate headings therefore
overwrite earlier ones. -/
theorem C2_duplicate_headings :
    (∀ (sec : String) (hs : List Ctx) (hc : Ctx) (name : String),
      findHeaderB sec hs = some (hc, name) →
      ∃ pre post, hs = pre ++ hc :: post ∧
        (∀ h ∈ pre, matchB sec h = false) ∧
        matchB sec hc = true ∧ name = resolveB sec hc) ∧
    (∀ (pl : List (String × String)) (name : String) (hs : List Ctx),
      (∀ h ∈ hs, cleanText (nodeText h.node) = name) →
      ∀ r : Record,
      lookupKV name (hs.foldl (stepCHeader pl) r) =
        match (hs.filterMap (headerYield pl)).getLast? with
        | some v => some v
        | none => lookupKV name r) := by
  constructor
  · intro sec hs
    induction hs with
    | nil => intro hc name h; cases h
    | cons h0 rest ih =>
      intro hc name h
      rw [findHeaderB] at h
      by_cases hsw : sec = wnf
      · rw [if_pos hsw] at h
        by_cases hpre : pyStartsWith sec (cleanText (nodeText h0.node)) = true
        · rw [if_pos hpre] at h
          injection h with h2
          have hfst : h0 = hc := congrArg Prod.fst h2
          have hsnd : cleanText (nodeText h0.node) = name :=
            congrArg Prod.snd h2
          refine ⟨[], rest, ?_, ?_, ?_, ?_⟩
          · rw [hfst]
            rfl
          · intro h3 hx
            cases hx
          · unfold matchB
            rw [if_pos hsw, ← hfst]
            exact hpre
          · unfold resolveB
            rw [if_pos hsw, ← hfst, hsnd]
        · rw [if_neg hpre] at h
          obtain ⟨pre, post, hsplit, hpre2, hmatch, hname⟩ := ih hc name h
          refine ⟨h0 :: pre, post, by rw [List.cons_append, hsplit], ?_,
            hmatch, hname⟩
          intro h3 hx
          rcases List.mem_cons.mp hx with he | hm
          · subst he
            unfold matchB
            rw [if_pos hsw]
            simpa using hpre
          · exact hpre2 h3 hm
      · rw [if_neg hsw] at h
        by_cases heq : cleanText (nodeText h0.node) = sec
        · rw [if_pos heq] at h
          injection h with h2
          have hfst : h0 = hc := congrArg Prod.fst h2
          have hsnd : sec = name := congrArg Prod.snd h2
          refine ⟨[], rest, ?_, ?_, ?_, ?_⟩
          · rw [hfst]
            rfl
          · intro h3 hx
            cases hx
          · unfold matchB
            rw [if_neg hsw, ← hfst]
            exact beq_iff_eq.mpr heq
          · unfold resolveB
            rw [if_neg hsw, hsnd]
        · rw [if_neg heq] at h
          obtain ⟨pre, post, hsplit, hpre2, hmatch, hname⟩ := ih hc name h
          refine ⟨h0 :: pre, post, by rw [List.cons_append, hsplit], ?_,
            hmatch, hname⟩
          intro h3 hx
          rcases List.mem_cons.mp hx with he | hm
          · subst he
            unfold matchB
            rw [if_neg hsw]
            simpa using heq
          · exact hpre2 h3 hm
  · intro pl name hs
    induction hs with
    | nil => intro _ r; rfl
    | cons h0 hs2 ih =>
      intro hall r
      have hname : cleanText (nodeText h0.node) = name := hall h0 (by simp)
      rw [List.foldl_cons,
        ih (fun h hm => hall h (by simp [hm])) (stepCHeader pl r h0),
        List.filterMap_cons]
      cases hy : headerYield pl h0 with
      | none =>
        show (match (List.filterMap (headerYield pl) hs2).getLast? with
              | some v => some v
              | none => lookupKV name (stepCHeader pl r h0)) =
            (match (List.filterMap (headerYield pl) hs2).getLast? with
              | some v => some v
              | none => lookupKV name r)
        cases hg : (List.filterMap (headerYield pl) hs2).getLast? with
        | some v => rfl
        | none => exact stepCHeader_yield_none pl h0 name hname hy r
      | some y =>
        cases hrest : List.filterMap (headerYield pl) hs2 with
        | nil =>
          show lookupKV name (stepCHeader pl r h0) = some y
          exact stepCHeader_yield_some pl h0 name y hname hy r
        | cons j js =>
          show (match ((j :: js) : List Val).getLast? with
                | some v => some v
                | none => lookupKV name (stepCHeader pl r h0)) =
              (match (y :: j :: js).getLast? with
                | some v => some v
                | none => lookupKV name r)
          have hlast : (y :: j :: js).getLast? = (j :: js).getLast? := by
            have he : y :: j :: js = [y] ++ (j :: js) := rfl
            rw [he, List.getLast?_append_of_ne_nil _ (by simp)]
          rw [hlast]
          have hsome : ((j :: js) : List Val).getLast?.isSome = true :=
            List.getLast?_isSome.mpr (by simp)
          obtain ⟨x, hx⟩ := Option.isSome_iff_exists.mp hsome
          rw [hx]

/-- Witness for C2 at a single-heading scan. -/
theorem C2_duplicate_headings_witness :
    ∃ pre post, [ctxIns] = pre ++ ctxIns :: post ∧
      (∀ h ∈ pre, matchB "Inspiration" h = false) ∧
      matchB "Inspiration" ctxIns = true ∧
      "Inspiration" = resolveB "Inspiration" ctxIns :=
  C2_duplicate_headings.1 "Inspiration" [ctxIns] ctxIns "Inspiration"
    (by decide)

/-- Counterexample to C2 as stated: two equal canonical headings both
match in Step C and the SECOND one determines the final value. -/
theorem C2_counterexample :
    (match mainContent docDupHeadings with
     | some mc => (headersC mc "Inspiration").length
     | none => 0) = 2 ∧
    lookupKV "Inspiration" (parse docDupHeadings) =
      some (Val.str "second") := by
  exact ⟨by decide, by decide⟩

/-! ### Claim C1: the Step C guard -/

/-- C1 (amended): the document-wide fallback is skipped exactly when
Step B produced an entry under one of the seven LITERAL canonical
names.  An entry recorded only under a resolved "What\x27s next for
..." display name does not suppress Step C, which then runs and may
overwrite it. -/
theorem C1_stepC_guard (root : Node)
    (h : ∃ sec ∈ sections, (lookupKV sec (parseUpToB root)).isSome = true) :
    parse root = cleanup (parseUpToB root) := by
  have hg : stepCGuard (parseUpToB root) = true := by
    unfold stepCGuard
    rw [List.any_eq_true]
    obtain ⟨sec, hs, hv⟩ := h
    exact ⟨sec, hs, hv⟩
  unfold parse stepC
  rw [if_pos hg]

/-- Witness for C1 at a fully structured document. -/
theorem C1_stepC_guard_witness :
    parse (docStructured "a" "b" "c" "d" "e" "f" "g") =
      cleanup (parseUpToB (docStructured "a" "b" "c" "d" "e" "f" "g")) :=
  C1_stepC_guard _ ⟨"Inspiration", by decide, by decide⟩

/-- Counterexample to C1 as stated: Step B emits one entry, under the
resolved name "What\x27s next for Foo", yet Step C still runs and
overwrites that very entry with different content. -/
theorem C1_counterexample :
    lookupKV "What\x27s next for Foo" (parseUpToB docPrefixOnly) =
      some (Val.str "bar") ∧
    lookupKV "What\x27s next for Foo" (parse docPrefixOnly) =
      some (Val.str "extra bar") := by
  exact ⟨by decide, by decide⟩

/-! ### Claim C3: equivalence of Step B and Step C on the canonical document -/

theorem cleanText_append_empty (t : String) :
    cleanText (t ++ "") = cleanText t := by
  rw [cleanText_eq, cleanText_eq]
  show String.mk (joinW (wordsOf (t.data ++ []))) = _
  rw [List.append_nil]

theorem emitSection_space (pl : List (String × String)) (name t : String)
    (r : Record) :
    emitSection pl name ("" ++ " " ++ pyStrip t) r =
      upsertKV name (Val.str (cleanText t)) r := by
  unfold emitSection
  rw [if_pos (append_space_append_ne_empty "" (pyStrip t))]
  have hclean : cleanText ("" ++ " " ++ pyStrip t) = cleanText t := by
    have h1 : ("" ++ " " ++ pyStrip t) = " " ++ pyStrip t := rfl
    rw [h1, cleanText_space_append, cleanText_pyStrip]
  rw [hclean]

theorem finishSection_space (pl : List (String × String)) (name t : String)
    (r : Record) :
    finishSection pl name ("" ++ " " ++ pyStrip t) r =
      upsertKV name (Val.str (cleanText t)) r := by
  unfold finishSection
  rw [if_neg (append_space_append_ne_empty "" (pyStrip t))]
  exact emitSection_space pl name t r

/-! ### Claim C3: equivalence of Step B and Step C on the canonical document -/

set_option maxHeartbeats 1000000 in
theorem C3aux_pre (t1 t2 t3 t4 t5 t6 t7 : String) :
    preSections (docStructured t1 t2 t3 t4 t5 t6 t7) = [] := rfl

set_option maxHeartbeats 1000000 in
theorem C3aux_preFlat (t1 t2 t3 t4 t5 t6 t7 : String) :
    preSections (docFlat t1 t2 t3 t4 t5 t6 t7) = [] := rfl

set_option maxHeartbeats 2000000 in
theorem C3aux_B (t1 t2 t3 t4 t5 t6 t7 : String) :
    stepB (docStructured t1 t2 t3 t4 t5 t6 t7)
      (datePlaceholders (docStructured t1 t2 t3 t4 t5 t6 t7)) [] =
    finishSection (datePlaceholders (docStructured t1 t2 t3 t4 t5 t6 t7))
      "What\x27s next for" ("" ++ " " ++ pyStrip (t7 ++ ""))
      (finishSection (datePlaceholders (docStructured t1 t2 t3 t4 t5 t6 t7))
        "What we learned" ("" ++ " " ++ pyStrip (t6 ++ ""))
        (finishSection
          (datePlaceholders (docStructured t1 t2 t3 t4 t5 t6 t7))
          "Accomplishments that we\x27re proud of"
          ("" ++ " " ++ pyStrip (t5 ++ ""))
          (finishSection
            (datePlaceholders (docStructured t1 t2 t3 t4 t5 t6 t7))
            "Challenges we ran into" ("" ++ " " ++ pyStrip (t4 ++ ""))
            (finishSection
              (datePlaceholders (docStructured t1 t2 t3 t4 t5 t6 t7))
              "How we built it" ("" ++ " " ++ pyStrip (t3 ++ ""))
              (finishSection
                (datePlaceholders (docStructured t1 t2 t3 t4 t5 t6 t7))
                "What it does" ("" ++ " " ++ pyStrip (t2 ++ ""))
                (finishSection
                  (datePlaceholders (docStructured t1 t2 t3 t4 t5 t6 t7))
                  "Inspiration" ("" ++ " " ++ pyStrip (t1 ++ ""))
                  [])))))) := rfl

set_option maxHeartbeats 1000000 in
theorem C3aux_Bflat (t1 t2 t3 t4 t5 t6 t7 : String) :
    stepB (docFlat t1 t2 t3 t4 t5 t6 t7)
      (datePlaceholders (docFlat t1 t2 t3 t4 t5 t6 t7)) [] = [] := rfl

set_option maxHeartbeats 2000000 in
theorem C3aux_C (t1 t2 t3 t4 t5 t6 t7 : String) :
    stepC (docFlat t1 t2 t3 t4 t5 t6 t7)
      (datePlaceholders (docFlat t1 t2 t3 t4 t5 t6 t7)) [] =
    emitSection (datePlaceholders (docFlat t1 t2 t3 t4 t5 t6 t7))
      "What\x27s next for" ("" ++ " " ++ pyStrip (t7 ++ ""))
      (emitSection (datePlaceholders (docFlat t1 t2 t3 t4 t5 t6 t7))
        "What we learned" ("" ++ " " ++ pyStrip (t6 ++ ""))
        (emitSection (datePlaceholders (docFlat t1 t2 t3 t4 t5 t6 t7))
          "Accomplishments that we\x27re proud of"
          ("" ++ " " ++ pyStrip (t5 ++ ""))
          (emitSection (datePlaceholders (docFlat t1 t2 t3 t4 t5 t6 t7))
            "Challenges we ran into" ("" ++ " " ++ pyStrip (t4 ++ ""))
            (emitSection
              (datePlaceholders (docFlat t1 t2 t3 t4 t5 t6 t7))
              "How we built it" ("" ++ " " ++ pyStrip (t3 ++ ""))
              (emitSection
                (datePlaceholders (docFlat t1 t2 t3 t4 t5 t6 t7))
                "What it does" ("" ++ " " ++ pyStrip (t2 ++ ""))
                (emitSection
                  (datePlaceholders (docFlat t1 t2 t3 t4 t5 t6 t7))
                  "Inspiration" ("" ++ " " ++ pyStrip (t1 ++ ""))
                  [])))))) := rfl

/-- C3: with a structured container holding all seven canonical
headings, each followed by one paragraph, Step B alone yields exactly
the seven section entries (cleaned paragraph texts under the resolved
names); the full parse adds only the defaulted title and description;
and the same content at top level with no structured container yields,
via Step C, an identical record. -/
theorem C3_strategy_equivalence (t1 t2 t3 t4 t5 t6 t7 : String) :
    parseUpToB (docStructured t1 t2 t3 t4 t5 t6 t7) =
      [("Inspiration", Val.str (cleanText t1)),
       ("What it does", Val.str (cleanText t2)),
       ("How we built it", Val.str (cleanText t3)),
       ("Challenges we ran into", Val.str (cleanText t4)),
       ("Accomplishments that we\x27re proud of", Val.str (cleanText t5)),
       ("What we learned", Val.str (cleanText t6)),
       ("What\x27s next for", Val.str (cleanText t7))] ∧
    parse (docStructured t1 t2 t3 t4 t5 t6 t7) =
      [("Inspiration", Val.str (cleanText t1)),
       ("What it does", Val.str (cleanText t2)),
       ("How we built it", Val.str (cleanText t3)),
       ("Challenges we ran into", Val.str (cleanText t4)),
       ("Accomplishments that we\x27re proud of", Val.str (cleanText t5)),
       ("What we learned", Val.str (cleanText t6)),
       ("What\x27s next for", Val.str (cleanText t7)),
       ("title", Val.str ""), ("description", Val.str "")] ∧
    parse (docFlat t1 t2 t3 t4 t5 t6 t7) =
      parse (docStructured t1 t2 t3 t4 t5 t6 t7) := by
  have h1 : parseUpToB (docStructured t1 t2 t3 t4 t5 t6 t7) =
      [("Inspiration", Val.str (cleanText t1)),
       ("What it does", Val.str (cleanText t2)),
       ("How we built it", Val.str (cleanText t3)),
       ("Challenges we ran into", Val.str (cleanText t4)),
       ("Accomplishments that we\x27re proud of", Val.str (cleanText t5)),
       ("What we learned", Val.str (cleanText t6)),
       ("What\x27s next for", Val.str (cleanText t7))] := by
    unfold parseUpToB
    rw [C3aux_pre, C3aux_B]
    simp only [finishSection_space, cleanText_append_empty]
    rfl
  have hguard : stepCGuard
      [("Inspiration", Val.str (cleanText t1)),
       ("What it does", Val.str (cleanText t2)),
       ("How we built it", Val.str (cleanText t3)),
       ("Challenges we ran into", Val.str (cleanText t4)),
       ("Accomplishments that we\x27re proud of", Val.str (cleanText t5)),
       ("What we learned", Val.str (cleanText t6)),
       ("What\x27s next for", Val.str (cleanText t7))] = true := rfl
  have h2 : parse (docStructured t1 t2 t3 t4 t5 t6 t7) =
      [("Inspiration", Val.str (cleanText t1)),
       ("What it does", Val.str (cleanText t2)),
       ("How we built it", Val.str (cleanText t3)),
       ("Challenges we ran into", Val.str (cleanText t4)),
       ("Accomplishments that we\x27re proud of", Val.str (cleanText t5)),
       ("What we learned", Val.str (cleanText t6)),
       ("What\x27s next for", Val.str (cleanText t7)),
       ("title", Val.str ""), ("description", Val.str "")] := by
    unfold parse
    rw [h1]
    unfold stepC
    rw [if_pos hguard]
    rfl
  have h3 : parse (docFlat t1 t2 t3 t4 t5 t6 t7) =
      [("Inspiration", Val.str (cleanText t1)),
       ("What it does", Val.str (cleanText t2)),
       ("How we built it", Val.str (cleanText t3)),
       ("Challenges we ran into", Val.str (cleanText t4)),
       ("Accomplishments that we\x27re proud of", Val.str (cleanText t5)),
       ("What we learned", Val.str (cleanText t6)),
       ("What\x27s next for", Val.str (cleanText t7)),
       ("title", Val.str ""), ("description", Val.str "")] := by
    unfold parse parseUpToB
    rw [C3aux_preFlat, C3aux_Bflat, C3aux_C]
    simp only [emitSection_space, cleanText_append_empty]
    rfl
  exact ⟨h1, h2, h3.trans h2.symm⟩

end Devpost
